import Mathlib

/-!
go-eth2-client: the chain-configuration normaliser, the configuration cache and the
multi-client wrapper of the pending-partial-withdrawals call.

A shallow embedding of

* `http/spec.go`: `parseSpecString`, `parseSpecArray`, `parseSpecMap`, `Service.Spec`;
* `multi/pendingpartialwithdrawals.go`: `Service.PendingPartialWithdrawals`;

together with the functions of the Go standard library they call
(`strings.HasPrefix`, `strings.HasSuffix`, `strings.TrimPrefix`, `hex.DecodeString`,
`strconv.ParseInt`, `strconv.ParseUint`, `time.Unix`, the builtin `copy`).

Conventions: a Go string is its sequence of bytes, a byte is a natural number below 256,
`int64` and `uint64` arithmetic is arithmetic on `Int` and `Nat` reduced modulo `2^64`
wherever Go wraps, and a function returning `(value, error)` returns an `Option` or an
`Except`.
-/

namespace Eth2Client

/-! ## Go strings and machine integers -/

/-- A Go string: an immutable sequence of bytes. -/
abbrev GoString := List Nat

/-- The bytes of an ASCII string literal of the source. -/
def goStr (s : String) : GoString := s.toList.map Char.toNat

/-- Conversion to `int64`: two's-complement wrap-around into `[-2^63, 2^63)`. -/
def toInt64 (x : Int) : Int := (x + 2 ^ 63) % 2 ^ 64 - 2 ^ 63

/-- Conversion to `uint64`: reduction modulo `2^64`. -/
def toUint64 (x : Nat) : Nat := x % 2 ^ 64

/-- The builtin `copy(dst, src)` on byte slices: the first `min(len(dst), len(src))`
elements of `dst` are overwritten with those of `src`; the value is the new content of
`dst`. -/
def copy (dst src : List Nat) : List Nat :=
  let n := min dst.length src.length
  src.take n ++ dst.drop n

/-! ## package strings -/

namespace strings

/-- Go: `len(s) >= len(prefix) && s[:len(prefix)] == prefix`. -/
def HasPrefix (s pre : GoString) : Bool :=
  decide (s.length ≥ pre.length) && decide (s.take pre.length = pre)

/-- Go: `len(s) >= len(suffix) && s[len(s)-len(suffix):] == suffix`. -/
def HasSuffix (s suf : GoString) : Bool :=
  decide (s.length ≥ suf.length) && decide (s.drop (s.length - suf.length) = suf)

/-- Go: `if HasPrefix(s, prefix) { return s[len(prefix):] }; return s`. -/
def TrimPrefix (s pre : GoString) : GoString :=
  if HasPrefix s pre then s.drop pre.length else s

end strings

/-! ## package encoding/hex -/

namespace hex

/-- The table `hextable = "0123456789abcdef"` used by the encoder. -/
def hextable : GoString := goStr "0123456789abcdef"

/-- The table `reverseHexTable`: the value of a hexadecimal digit (either case), `none`
for the entries `0xff` of every other byte. -/
def reverseHexTable (c : Nat) : Option Nat :=
  if 48 ≤ c ∧ c ≤ 57 then some (c - 48)
  else if 97 ≤ c ∧ c ≤ 102 then some (c - 97 + 10)
  else if 65 ≤ c ∧ c ≤ 70 then some (c - 65 + 10)
  else none

/-- The loop of `hex.Decode`: two characters at a time, `dst[i] = (a << 4) | b`; an
invalid character or a trailing single character is an error (`none`). -/
def Decode : GoString → Option (List Nat)
  | [] => some []
  | [_] => none
  | p :: q :: rest =>
    match reverseHexTable p, reverseHexTable q with
    | some a, some b =>
      match Decode rest with
      | some bs => some (((a <<< 4) ||| b) % 256 :: bs)
      | none => none
    | _, _ => none

/-- The function `hex.DecodeString`: the decoded bytes, or `none` when it returns an error. -/
def DecodeString (s : GoString) : Option (List Nat) := Decode s

/-- The function `hex.EncodeToString`: for each byte `v` the characters `hextable[v >> 4]`
and `hextable[v & 0x0f]`. -/
def EncodeToString : List Nat → GoString
  | [] => []
  | v :: rest => hextable.getD (v >>> 4) 0 :: hextable.getD (v &&& 15) 0 :: EncodeToString rest

end hex

/-! ## package strconv (base 10, bit size 64: the only arguments the program passes) -/

namespace strconv

/-- The two causes of a `*NumError`. -/
inductive NumError where
  | ErrSyntax
  | ErrRange
  deriving DecidableEq, Repr

/-- Go: `lower(c) = c | ('x' - 'X')`. -/
def lower (c : Nat) : Nat := c ||| 32

/-- Go: `maxUint64 = 1<<64 - 1`. -/
def maxUint64 : Nat := 2 ^ 64 - 1

/-- The digit loop of `ParseUint` with `base = 10`, `bitSize = 64` (so `maxVal = maxUint64`
and `cutoff = maxUint64/10 + 1`); `n` is the value accumulated so far. -/
def parseUintLoop : GoString → Nat → Except NumError Nat
  | [], n => .ok n
  | c :: rest, n =>
    let d? : Option Nat :=
      if 48 ≤ c ∧ c ≤ 57 then some (c - 48)
      else if 97 ≤ lower c ∧ lower c ≤ 122 then some (lower c - 97 + 10)
      else none
    match d? with
    | none => .error .ErrSyntax
    | some d =>
      if d ≥ 10 then .error .ErrSyntax
      else if n ≥ maxUint64 / 10 + 1 then .error .ErrRange
      else
        let n10 := toUint64 (n * 10)
        let n1 := toUint64 (n10 + d)
        if n1 < n10 ∨ n1 > maxUint64 then .error .ErrRange
        else parseUintLoop rest n1

/-- The call `strconv.ParseUint(s, 10, 64)`. On `ErrRange` Go also returns the value
`maxUint64`, which `ParseInt` reads; see `ParseInt`. -/
def ParseUint (s : GoString) : Except NumError Nat :=
  if s = [] then .error .ErrSyntax else parseUintLoop s 0

/-- The call `strconv.ParseInt(s, 10, 64)`: an optional sign, then `ParseUint`; a range
error of `ParseUint` leaves `un = maxUint64`, which then fails the cutoff test. -/
def ParseInt (s : GoString) : Except NumError Int :=
  match s with
  | [] => .error .ErrSyntax
  | c :: rest =>
    let neg : Bool := decide (c ≠ 43) && decide (c = 45)
    let s1 : GoString := if c = 43 then rest else if c = 45 then rest else s
    match ParseUint s1 with
    | .error .ErrSyntax => .error .ErrSyntax
    | r =>
      let un : Nat := match r with
        | .ok n => n
        | .error _ => maxUint64
      let cutoff : Nat := 2 ^ 63
      if !neg && decide (un ≥ cutoff) then .error .ErrRange
      else if neg && decide (un > cutoff) then .error .ErrRange
      else
        let n : Int := toInt64 un
        .ok (if neg then toInt64 (-n) else n)

/-- The decimal rendering of a natural number (`strconv.FormatUint(n, 10)`): no sign, no
leading zeros, `"0"` for zero. -/
def decimal (n : Nat) : GoString := (Nat.toDigits 10 n).map Char.toNat

/-- The decimal rendering of an integer (`strconv.FormatInt(n, 10)`): the rendering of the
absolute value, after a minus sign when `n` is negative. -/
def decimalInt (n : Int) : GoString :=
  if n < 0 then 45 :: decimal n.natAbs else decimal n.natAbs

end strconv

/-! ## package time -/

namespace time

/-- A `time.Time` without monotonic clock reading: `wall` holds the nanoseconds, `ext` the
seconds since January 1, year 1 (an `int64`). The location is always `Local` here. -/
structure Time where
  wall : Nat
  ext : Int
  deriving DecidableEq, Repr

/-- Go: `unixToInternal = (1969*365 + 1969/4 - 1969/100 + 1969/400) * secondsPerDay`. -/
def unixToInternal : Int := (1969 * 365 + 1969 / 4 - 1969 / 100 + 1969 / 400) * 86400

/-- Go: `unixTime(sec, nsec) = Time{uint64(nsec), sec + unixToInternal, Local}`. -/
def unixTime (sec : Int) (nsec : Nat) : Time :=
  { wall := nsec, ext := toInt64 (sec + unixToInternal) }

/-- The call `time.Unix(sec, nsec)` for `0 <= nsec < 1e9` (the program passes `nsec = 0`),
where the normalising branch of the function is not entered. -/
def Unix (sec : Int) (nsec : Nat) : Time := unixTime sec nsec

/-- Go: `time.Second`, in nanoseconds. -/
def Second : Int := 1000000000

/-- Go: `t.sec()`, the seconds since January 1, year 1; without monotonic clock reading
this is the field `ext`. -/
def Time.sec (t : Time) : Int := t.ext

/-- Go: `t.nsec() = int32(t.wall & nsecMask)`, with `nsecMask = 1<<30 - 1`. -/
def Time.nsec (t : Time) : Nat := t.wall % 2 ^ 30

/-- The method `t.Unix()`: `t.sec() + internalToUnix`, an `int64` sum, where
`internalToUnix = -unixToInternal`. -/
def Time.Unix (t : Time) : Int := toInt64 (t.sec + -unixToInternal)

/-- The method `t.Before(u)` for times without monotonic clock reading:
`ts < us || ts == us && t.nsec() < u.nsec()`. -/
def Time.Before (t u : Time) : Bool :=
  decide (t.sec < u.sec) || (decide (t.sec = u.sec) && decide (t.nsec < u.nsec))

end time

/-! ## The values held in a `map[string]any` -/

/-- A Go value of dynamic type, as stored in the configuration tree: what JSON decoding
produces (`nil`, `bool`, `float64`, `string`, `[]any`, `map[string]any`), what the normaliser
produces (`phase0.DomainType`, `phase0.Version`, `[]byte`, `time.Time`, `time.Duration`,
`uint64`), and `other` for a value of any further type. A map is the list of its entries;
a Go map holds every key at most once. -/
inductive Value where
  | nil
  | bool (b : Bool)
  | float64 (bits : Nat)
  | string (s : GoString)
  | slice (xs : List Value)
  | map (m : List (GoString × Value))
  | domainType (d : List Nat)
  | version (d : List Nat)
  | bytes (b : List Nat)
  | time (t : time.Time)
  | duration (d : Int)
  | uint64 (n : Nat)
  | other (tag : Nat)

/-- A `map[string]any`. -/
abbrev SpecMap := List (GoString × Value)

/-- The statement `m[k] = v`: overwrite the entry of `k` when there is one, add one
otherwise. -/
def mapSet : SpecMap → GoString → Value → SpecMap
  | [], k, v => [(k, v)]
  | (k', v') :: rest, k, v => if k' = k then (k, v) :: rest else (k', v') :: mapSet rest k v

/-- The expression `m[k]` with its `exists` flag: `none` when `k` is not a key of `m`. -/
def mapGet : SpecMap → GoString → Option Value
  | [], _ => none
  | (k', v') :: rest, k => if k' = k then some v' else mapGet rest k

/-- The keys of a map. -/
def mapKeys (m : SpecMap) : List GoString := m.map Prod.fst

/-- The values of the six types that `parseSpecString` converts a string into. -/
def Value.isTyped : Value → Bool
  | .domainType _ => true
  | .version _ => true
  | .bytes _ => true
  | .time _ => true
  | .duration _ => true
  | .uint64 _ => true
  | _ => false

/-! ## http/spec.go: the normaliser -/

/-- The statement under `// Handle domains.` of `parseSpecString`: `some r` when it
returns `r`, `none` when control falls through to the next statement. -/
def parseSpecString.domains (k v : GoString) : Option Value :=
  if strings.HasPrefix k (goStr "DOMAIN_") then
    match hex.DecodeString (strings.TrimPrefix v (goStr "0x")) with
    | some byteVal => some (Value.domainType (copy [0, 0, 0, 0] byteVal))
    | none => none
  else none

/-- The statement under `// Handle fork versions.`. -/
def parseSpecString.forkVersions (k v : GoString) : Option Value :=
  if strings.HasSuffix k (goStr "_FORK_VERSION") then
    match hex.DecodeString (strings.TrimPrefix v (goStr "0x")) with
    | some byteVal => some (Value.version (copy [0, 0, 0, 0] byteVal))
    | none => none
  else none

/-- The statement under `// Handle hex strings.`. -/
def parseSpecString.hexStrings (v : GoString) : Option Value :=
  if strings.HasPrefix v (goStr "0x") then
    match hex.DecodeString (strings.TrimPrefix v (goStr "0x")) with
    | some byteVal => some (Value.bytes byteVal)
    | none => none
  else none

/-- The statement under `// Handle times.`. -/
def parseSpecString.times (k v : GoString) : Option Value :=
  if strings.HasSuffix k (goStr "_TIME") then
    match strconv.ParseInt v with
    | .ok intVal => if intVal ≠ 0 then some (Value.time (time.Unix intVal 0)) else none
    | .error _ => none
  else none

/-- The statement under `// Handle durations.`; the product
`time.Duration(intVal) * time.Second` is an `int64` product. -/
def parseSpecString.durations (k v : GoString) : Option Value :=
  if strings.HasPrefix k (goStr "SECONDS_PER_") || decide (k = goStr "GENESIS_DELAY") then
    match strconv.ParseInt v with
    | .ok intVal =>
      if intVal ≥ 0 then some (Value.duration (toInt64 (intVal * time.Second))) else none
    | .error _ => none
  else none

/-- The two statements under `// Handle integers.`. -/
def parseSpecString.integers (v : GoString) : Option Value :=
  if v = goStr "0" then some (Value.uint64 0)
  else
    match strconv.ParseUint v with
    | .ok intVal => if intVal ≠ 0 then some (Value.uint64 intVal) else none
    | .error _ => none

/-- The function `parseSpecString` of `http/spec.go`: its statements in order, the first
that returns decides the result, and `// Assume string.` returns `v` when none does. -/
def parseSpecString (k v : GoString) : Value :=
  match parseSpecString.domains k v with
  | some r => r
  | none =>
  match parseSpecString.forkVersions k v with
  | some r => r
  | none =>
  match parseSpecString.hexStrings v with
  | some r => r
  | none =>
  match parseSpecString.times k v with
  | some r => r
  | none =>
  match parseSpecString.durations k v with
  | some r => r
  | none =>
  match parseSpecString.integers v with
  | some r => r
  | none => Value.string v

mutual
/-- The type switch in the loop bodies of `parseSpecMap` (called with the key of the entry)
and of `parseSpecArray` (called with the empty key): a string goes through
`parseSpecString`, a `[]any` through `parseSpecArray`, a `map[string]any` through
`parseSpecMap`, anything else is kept. -/
def parseSpecValue (k : GoString) (v : Value) : Value :=
  match v with
  | .string value => parseSpecString k value
  | .slice value => .slice (parseSpecArray value)
  | .map value => .map (parseSpecMapLoop value [])
  | _ => v
termination_by structural v
/-- The loop of `parseSpecMap`: `for k, v := range data { config[k] = ... }`, over the
entries of `data` still to visit and the `config` built so far. Go does not fix the order
in which `range` visits a map; the entries are visited in list order here. On a map, whose
keys are distinct, every key is written once and the result holds the image of each entry
(`parseSpecMap_of_nodup`), whatever the order. -/
def parseSpecMapLoop (data : SpecMap) (config : SpecMap) : SpecMap :=
  match data with
  | [] => config
  | (k, v) :: rest => parseSpecMapLoop rest (mapSet config k (parseSpecValue k v))
termination_by structural data
/-- The function `parseSpecArray` of `http/spec.go`: `result[i]` is the switch applied to
`array[i]`, with the empty key. -/
def parseSpecArray (array : List Value) : List Value :=
  match array with
  | [] => []
  | element :: rest => parseSpecValue [] element :: parseSpecArray rest
termination_by structural array
end

/-- The function `parseSpecMap` of `http/spec.go`: the loop run from `config := make(map[string]any)`. -/
def parseSpecMap (data : SpecMap) : SpecMap := parseSpecMapLoop data []

/-! ## The shape of a configuration tree -/

/-- The shape of a value: a leaf, an array of shapes, or a map from keys to shapes. -/
inductive Shape where
  | leaf
  | slice (xs : List Shape)
  | map (m : List (GoString × Shape))

mutual
/-- The shape of a value: arrays and maps keep their structure, everything else is a
leaf. -/
def Value.shape (v : Value) : Shape :=
  match v with
  | .slice xs => .slice (shapeArray xs)
  | .map m => .map (shapeMap m)
  | _ => .leaf
termination_by structural v
/-- The shapes of the elements of an array, in order. -/
def shapeArray (xs : List Value) : List Shape :=
  match xs with
  | [] => []
  | x :: rest => x.shape :: shapeArray rest
termination_by structural xs
/-- The shapes of the entries of a map, under their keys. -/
def shapeMap (m : SpecMap) : List (GoString × Shape) :=
  match m with
  | [] => []
  | (k, v) :: rest => (k, v.shape) :: shapeMap rest
termination_by structural m
end

mutual
/-- A value is well formed when every map in it, at any depth, holds each key at most once,
as every Go map does. -/
def Value.wellFormed (v : Value) : Bool :=
  match v with
  | .slice xs => wellFormedArray xs
  | .map m => decide (mapKeys m).Nodup && wellFormedMap m
  | _ => true
termination_by structural v
/-- Every element of the array is well formed. -/
def wellFormedArray (xs : List Value) : Bool :=
  match xs with
  | [] => true
  | x :: rest => x.wellFormed && wellFormedArray rest
termination_by structural xs
/-- Every value of the map is well formed. -/
def wellFormedMap (m : SpecMap) : Bool :=
  match m with
  | [] => true
  | (_, v) :: rest => v.wellFormed && wellFormedMap rest
termination_by structural m
end

/-! ## http/spec.go: the configuration cache -/

/-- An `error` value: the sentinel errors the two methods return themselves, and `upstream`
for any error produced by a collaborator. -/
inductive Error where
  | ErrNoOptions
  | ErrIncorrectType
  | upstream (id : Nat)
  deriving DecidableEq, Repr

namespace http

/-- The options shared by all calls (`api.CommonOpts`). -/
structure CommonOpts where
  Timeout : Int
  deriving DecidableEq, Repr

/-- The options of `Spec` (`api.SpecOpts`). -/
structure SpecOpts where
  Common : CommonOpts
  deriving DecidableEq, Repr

/-- The reply of `s.get`, of which `Spec` reads the body. -/
structure httpResponse where
  body : List Nat
  deriving DecidableEq, Repr

/-- An `api.Response[map[string]any]`. -/
structure Response where
  Data : SpecMap
  Metadata : SpecMap

/-- What the collaborators of `Spec`, which are not part of `http/spec.go`, return during
one call: `s.assertIsActive(ctx)` (`none` is the nil error), `s.get(ctx, endpoint, "",
&opts.Common, false)` and `decodeJSONResponse(body, ...)` (data and
metadata). -/
structure Collaborators where
  assertIsActive : Option Error
  get : GoString → CommonOpts → Except Error httpResponse
  decodeJSONResponse : List Nat → Except Error (SpecMap × SpecMap)

/-- One call of `s.get`, as recorded in the service: the endpoint asked for and whether the
call returned without error. -/
structure GetRecord where
  endpoint : GoString
  succeeded : Bool
  deriving DecidableEq, Repr

/-- The part of `Service` that `Spec` reads and writes: the field `spec` (`none` is the nil
map of an empty cache), and a record of the calls of `s.get` made so far, latest first.
The mutex `specMutex` has no effect on a sequential run and is left out. -/
structure Service where
  spec : Option SpecMap
  gets : List GetRecord

/-- The method `Service.Spec` of `http/spec.go`, run to completion without interleaving:
the result `(response, error)` and the service afterwards. -/
def Service.Spec (s : Service) (c : Collaborators) (opts : Option SpecOpts) :
    Except Error Response × Service :=
  match c.assertIsActive with
  | some err => (.error err, s)
  | none =>
  match opts with
  | none => (.error .ErrNoOptions, s)
  | some opts =>
  -- s.specMutex.RLock()
  match s.spec with
  | some spec => (.ok { Data := spec, Metadata := [] }, s)
  | none =>
  -- s.specMutex.Lock()
  match s.spec with
  | some spec => (.ok { Data := spec, Metadata := [] }, s)
  | none =>
  -- Up to us to fetch the information.
  let endpoint := goStr "/eth/v1/config/spec"
  match c.get endpoint opts.Common with
  | .error err => (.error err, { s with gets := ⟨endpoint, false⟩ :: s.gets })
  | .ok httpResponse =>
  let s := { s with gets := ⟨endpoint, true⟩ :: s.gets }
  match c.decodeJSONResponse httpResponse.body with
  | .error err => (.error err, s)
  | .ok (data, metadata) =>
  let config := parseSpecMap data
  let config :=
    if (mapGet config (goStr "DOMAIN_APPLICATION_MASK")).isNone then
      mapSet config (goStr "DOMAIN_APPLICATION_MASK") (Value.domainType [0x00, 0x00, 0x00, 0x01])
    else config
  let config :=
    if (mapGet config (goStr "DOMAIN_BLS_TO_EXECUTION_CHANGE")).isNone then
      mapSet config (goStr "DOMAIN_BLS_TO_EXECUTION_CHANGE")
        (Value.domainType [0x0a, 0x00, 0x00, 0x00])
    else config
  let config :=
    if (mapGet config (goStr "DOMAIN_APPLICATION_BUILDER")).isNone then
      mapSet config (goStr "DOMAIN_APPLICATION_BUILDER")
        (Value.domainType [0x00, 0x00, 0x00, 0x01])
    else config
  let s := { s with spec := some config }
  (.ok { Data := config, Metadata := metadata }, s)

/-- One call of `Spec` in a run: what the collaborators return during it and the options
the caller passes. -/
structure Call where
  collaborators : Collaborators
  opts : Option SpecOpts

/-- A sequential run of `Spec` calls: the results in call order and the final service. -/
def runSpec : List Call → Service → List (Except Error Response) × Service
  | [], s => ([], s)
  | call :: rest, s =>
    let r := s.Spec call.collaborators call.opts
    let rs := runSpec rest r.2
    (r.1 :: rs.1, rs.2)

/-- The number of calls of a run that store a map in the cache (reach `s.spec = config`). -/
def populations : List Call → Service → Nat
  | [], _ => 0
  | call :: rest, s =>
    let r := s.Spec call.collaborators call.opts
    (if s.spec.isNone && r.2.spec.isSome then 1 else 0) + populations rest r.2

/-- The collaborators of an active service whose `s.get` returns the body `body` and whose
decoder rejects the body `<html>` and decodes every other body to the raw map `t`, without
metadata. -/
def replying (body : List Nat) (t : SpecMap) : Collaborators :=
  { assertIsActive := none
    get := fun _ _ => .ok { body := body }
    decodeJSONResponse := fun b =>
      if b = goStr "<html>" then .error (.upstream 1) else .ok (t, []) }

/-- A call with options during which `s.get` returns the body `body`. -/
def callReplying (body : List Nat) (t : SpecMap) : Call :=
  { collaborators := replying body t, opts := some { Common := { Timeout := 0 } } }

/-- The service before its first call: empty cache, no `s.get` made. -/
def Service.initial : Service := { spec := none, gets := [] }

/-- The number of calls of `s.get` recorded in the service that returned without error. -/
def Service.successfulGets (s : Service) : Nat := (s.gets.filter (fun g => g.succeeded)).length

end http

/-! ## multi/pendingpartialwithdrawals.go -/

namespace multi

/-- The options of the call (`api.PendingPartialWithdrawalsOpts`). -/
structure PendingPartialWithdrawalsOpts where
  Common : http.CommonOpts
  State : GoString
  deriving DecidableEq, Repr

/-- An `electra.PendingPartialWithdrawal`. -/
structure PendingPartialWithdrawal where
  ValidatorIndex : Nat
  Amount : Nat
  WithdrawableEpoch : Nat
  deriving DecidableEq, Repr

/-- An `api.Response[[]*electra.PendingPartialWithdrawal]`. -/
structure Response where
  Data : List PendingPartialWithdrawal
  Metadata : SpecMap

/-- A value of type `any` as `doCall` can return it: the nil interface, a pointer to a
pending-partial-withdrawals response (`none` is the nil pointer of that type), or a value
of any other dynamic type. -/
inductive AnyValue where
  | nil
  | pendingPartialWithdrawalsResponse (p : Option Response)
  | other (tag : Nat)

/-- An upstream client (`consensusclient.Service`): it implements
`consensusclient.PendingPartialWithdrawalsProvider` or not; if it does,
`PendingPartialWithdrawals` is what its method returns for the options (`none` is the nil
pointer) it is given. -/
structure Client where
  PendingPartialWithdrawals :
    Option (Option PendingPartialWithdrawalsOpts → Option Response × Option Error)

/-- How a function call ends: it returns a value or the goroutine panics. -/
inductive Outcome (α : Type) where
  | returns (a : α)
  | panics

/-- The function literal handed to `doCall`. The type assertion
`client.(consensusclient.PendingPartialWithdrawalsProvider)` has the single-value form,
which panics when the client does not implement the interface. -/
def pendingPartialWithdrawalsCall (opts : Option PendingPartialWithdrawalsOpts)
    (client : Client) : Outcome (AnyValue × Option Error) :=
  match client.PendingPartialWithdrawals with
  | none => .panics
  | some provider =>
    match (provider opts).2 with
    | some err => .returns (.nil, some err)
    | none => .returns (.pendingPartialWithdrawalsResponse (provider opts).1, none)

/-- The multi-client service. Its coordinator method `doCall(ctx, call, nil)` is not part
of `multi/pendingpartialwithdrawals.go`; it is a field here: from the function to run on a
client to the pair `(res, err)` it returns. -/
structure Service where
  doCall : (Client → Outcome (AnyValue × Option Error)) → AnyValue × Option Error

/-- The method `Service.PendingPartialWithdrawals` of `multi/pendingpartialwithdrawals.go`:
the pair `(response, error)` it returns, `none` being nil. -/
def Service.PendingPartialWithdrawals (s : Service)
    (opts : Option PendingPartialWithdrawalsOpts) : Option Response × Option Error :=
  match (s.doCall (pendingPartialWithdrawalsCall opts)).2 with
  | some err => (none, some err)
  | none =>
    match (s.doCall (pendingPartialWithdrawalsCall opts)).1 with
    | .pendingPartialWithdrawalsResponse response => (response, none)
    | _ => (none, some .ErrIncorrectType)

end multi

end Eth2Client

namespace Eth2Client

/-! ## Lemmas: strings -/

theorem hasPrefix_append (p s : GoString) : strings.HasPrefix (p ++ s) p = true := by
  simp [strings.HasPrefix]

theorem trimPrefix_append (p s : GoString) : strings.TrimPrefix (p ++ s) p = s := by
  simp [strings.TrimPrefix, hasPrefix_append]

/-! ## Lemmas: hexadecimal encoding -/

set_option maxRecDepth 100000 in
theorem hex_digit_roundtrip : ∀ v, v < 256 →
    hex.reverseHexTable (hex.hextable.getD (v >>> 4) 0) = some (v >>> 4) ∧
    hex.reverseHexTable (hex.hextable.getD (v &&& 15) 0) = some (v &&& 15) ∧
    (((v >>> 4) <<< 4) ||| (v &&& 15)) % 256 = v := by
  decide

theorem decode_encode (b : List Nat) (hb : ∀ x ∈ b, x < 256) :
    hex.DecodeString (hex.EncodeToString b) = some b := by
  unfold hex.DecodeString
  induction b with
  | nil => rfl
  | cons v rest ih =>
    have hv := hex_digit_roundtrip v (hb v (List.mem_cons_self _ _))
    have hrest := ih (fun x hx => hb x (List.mem_cons_of_mem _ hx))
    simp only [hex.EncodeToString, hex.Decode, hv.1, hv.2.1, hrest, hv.2.2]

/-! ## Lemmas: the builtin copy into a zeroed 4-byte array -/

theorem copy_zero4 (b : List Nat) :
    copy [0, 0, 0, 0] b = b.take 4 ++ List.replicate (4 - b.length) 0 := by
  match b with
  | [] => rfl
  | [_] => rfl
  | [_, _] => rfl
  | [_, _, _] => rfl
  | _ :: _ :: _ :: _ :: rest =>
    simp [copy, List.replicate]

theorem tag4_length (b : List Nat) :
    (b.take 4 ++ List.replicate (4 - b.length) 0).length = 4 := by
  simp only [List.length_append, List.length_take, List.length_replicate]
  omega

theorem tag4_get_lt (b : List Nat) (i : Nat) (hi : i < min 4 b.length) :
    (b.take 4 ++ List.replicate (4 - b.length) 0)[i]? = b[i]? := by
  have h1 : i < (b.take 4).length := by simpa [List.length_take] using hi
  rw [List.getElem?_append_left h1, List.getElem?_take]
  have : i < 4 := by omega
  simp [this]

theorem tag4_get_ge (b : List Nat) (i : Nat) (hi : min 4 b.length ≤ i) (h4 : i < 4) :
    (b.take 4 ++ List.replicate (4 - b.length) 0)[i]? = some 0 := by
  have h1 : (b.take 4).length ≤ i := by simpa [List.length_take] using hi
  rw [List.getElem?_append_right h1]
  have h2 : i - (b.take 4).length < 4 - b.length := by
    simp only [List.length_take]; omega
  rw [List.getElem?_replicate, if_pos h2]

/-! ## Lemmas: decimal rendering and `strconv` -/

section
open strconv

theorem toDigitsCore_acc : ∀ fuel n acc, n < fuel →
    Nat.toDigitsCore 10 fuel n acc = Nat.toDigitsCore 10 (n + 1) n [] ++ acc := by
  intro fuel
  induction fuel using Nat.strong_induction_on with
  | _ fuel ih =>
    intro n acc hn
    cases fuel with
    | zero => omega
    | succ fuel =>
      by_cases h : n / 10 = 0
      · simp [Nat.toDigitsCore, h]
      · have h1 : n / 10 < fuel := by omega
        have h2 : n / 10 < n := by omega
        simp only [Nat.toDigitsCore, h, if_false]
        rw [ih fuel (by omega) (n / 10) _ h1, ih n (by omega) (n / 10) [_] h2]
        simp

theorem digitChar_toNat : ∀ m, m < 10 → (Nat.digitChar m).toNat = 48 + m := by
  decide

theorem decimal_lt (n : Nat) (h : n < 10) : decimal n = [48 + n] := by
  have h0 : n / 10 = 0 := by omega
  have h1 : n % 10 = n := by omega
  simp [decimal, Nat.toDigits, Nat.toDigitsCore, h0, h1, digitChar_toNat n h]

theorem decimal_ge (n : Nat) (h : 10 ≤ n) :
    decimal n = decimal (n / 10) ++ [48 + n % 10] := by
  have h0 : n / 10 ≠ 0 := by omega
  have h2 : n / 10 < n := by omega
  have h3 : Nat.toDigitsCore 10 (n + 1) n []
      = Nat.toDigitsCore 10 n (n / 10) [Nat.digitChar (n % 10)] := by
    rw [Nat.toDigitsCore.eq_2]
    simp only [h0, if_false]
  have h4 : Nat.toDigits 10 n = Nat.toDigits 10 (n / 10) ++ [Nat.digitChar (n % 10)] :=
    calc Nat.toDigits 10 n = Nat.toDigitsCore 10 (n + 1) n [] := rfl
      _ = Nat.toDigitsCore 10 n (n / 10) [Nat.digitChar (n % 10)] := h3
      _ = Nat.toDigitsCore 10 (n / 10 + 1) (n / 10) [] ++ [Nat.digitChar (n % 10)] :=
          toDigitsCore_acc n (n / 10) _ h2
  simp [decimal, h4, digitChar_toNat (n % 10) (by omega)]

theorem decimal_digits (n : Nat) : ∀ c ∈ decimal n, 48 ≤ c ∧ c ≤ 57 := by
  induction n using Nat.strong_induction_on with
  | _ n ih =>
    intro c hc
    by_cases h : n < 10
    · rw [decimal_lt n h] at hc
      simp at hc
      omega
    · rw [decimal_ge n (by omega)] at hc
      rcases List.mem_append.1 hc with hc | hc
      · exact ih (n / 10) (by omega) c hc
      · simp at hc
        omega

theorem decimal_ne_nil (n : Nat) : decimal n ≠ [] := by
  by_cases h : n < 10
  · rw [decimal_lt n h]; simp
  · rw [decimal_ge n (by omega)]; simp

theorem parseUintLoop_digit (c n : Nat) (hc : 48 ≤ c ∧ c ≤ 57)
    (hn : n * 10 + (c - 48) < 2 ^ 64) (rest : GoString) :
    parseUintLoop (c :: rest) n = parseUintLoop rest (n * 10 + (c - 48)) := by
  have h1 : ¬ (c - 48 ≥ 10) := by omega
  have h2 : ¬ (n ≥ maxUint64 / 10 + 1) := by simp only [maxUint64]; omega
  have h3 : toUint64 (n * 10) = n * 10 := by
    simp only [toUint64]; omega
  have h4 : toUint64 (n * 10 + (c - 48)) = n * 10 + (c - 48) := by
    simp only [toUint64]; omega
  have h5 : ¬ (n * 10 + (c - 48) < n * 10 ∨ n * 10 + (c - 48) > maxUint64) := by
    simp only [maxUint64]; omega
  simp only [parseUintLoop, hc, and_self, if_true, h1, h2, h3, h4, h5, if_false]

theorem parseUintLoop_decimal_append (n : Nat) : n < 2 ^ 64 → ∀ rest : GoString,
    parseUintLoop (decimal n ++ rest) 0 = parseUintLoop rest n := by
  induction n using Nat.strong_induction_on with
  | _ n ih =>
    intro hn rest
    by_cases h : n < 10
    · rw [decimal_lt n h, List.singleton_append,
        parseUintLoop_digit (48 + n) 0 (by omega) (by omega)]
      congr 1
      omega
    · rw [decimal_ge n (by omega), List.append_assoc, List.singleton_append,
        ih (n / 10) (by omega) (by omega),
        parseUintLoop_digit (48 + n % 10) (n / 10) (by omega) (by omega)]
      congr 1
      omega

theorem parseUint_decimal (n : Nat) (hn : n < 2 ^ 64) : ParseUint (decimal n) = .ok n := by
  have h := parseUintLoop_decimal_append n hn []
  rw [List.append_nil] at h
  simp only [ParseUint, decimal_ne_nil n, if_false, h, parseUintLoop]

theorem decimal_head (n : Nat) : ∃ c rest, decimal n = c :: rest ∧ 48 ≤ c ∧ c ≤ 57 := by
  cases hd : decimal n with
  | nil => exact absurd hd (decimal_ne_nil n)
  | cons c rest =>
    exact ⟨c, rest, rfl, decimal_digits n c (by rw [hd]; exact List.mem_cons_self _ _)⟩

theorem toInt64_of_lt (n : Nat) (hn : n < 2 ^ 63) : toInt64 (n : Int) = n := by
  simp only [toInt64]
  omega

theorem parseInt_decimal (n : Nat) (hn : n < 2 ^ 63) : ParseInt (decimal n) = .ok (n : Int) := by
  obtain ⟨c, rest, hd, hc1, hc2⟩ := decimal_head n
  have hu := parseUint_decimal n (by omega)
  rw [hd] at hu
  have h43 : ¬ c = 43 := by omega
  have h45 : ¬ c = 45 := by omega
  have hlt : ¬ n ≥ 2 ^ 63 := by omega
  rw [hd]
  simp only [ParseInt, h43, h45, if_false, hu, decide_False, Bool.and_false, Bool.false_and,
    Bool.not_false, Bool.true_and, hlt, toInt64_of_lt n hn]
  simp

theorem decimal_not_hex (n : Nat) : strings.HasPrefix (decimal n) (goStr "0x") = false := by
  by_contra h
  simp only [Bool.not_eq_false] at h
  simp only [strings.HasPrefix, Bool.and_eq_true, decide_eq_true_eq] at h
  have hx : 120 ∈ decimal n := by
    have : 120 ∈ (decimal n).take (goStr "0x").length := by rw [h.2]; decide
    exact List.mem_of_mem_take this
  have := decimal_digits n 120 hx
  omega

end

/-! ## The rules of `parseSpecString` that read a hexadecimal value -/

/-- C2. For a key with prefix `DOMAIN_` and bytes `b` of any length, the value
`"0x" ++ hex(b)` normalises to the domain-type tag `d` obtained by copying `b` into a zeroed
array of 4 bytes: `d` has 4 bytes, `d[i] = b[i]` for `i < min(4, len b)` and `d[i] = 0` at
the other positions; the result is neither a version tag nor a byte slice; and
`parseSpecString("DOMAIN_FOO", "0x00000001")` is the tag `[0, 0, 0, 1]`. -/
theorem parseSpecString_domain (k : GoString) (b : List Nat)
    (hk : strings.HasPrefix k (goStr "DOMAIN_") = true) (hb : ∀ x ∈ b, x < 256) :
    parseSpecString k (goStr "0x" ++ hex.EncodeToString b)
        = Value.domainType (copy [0, 0, 0, 0] b) ∧
      (copy [0, 0, 0, 0] b).length = 4 ∧
      (∀ i, i < min 4 b.length → (copy [0, 0, 0, 0] b)[i]? = b[i]?) ∧
      (∀ i, min 4 b.length ≤ i → i < 4 → (copy [0, 0, 0, 0] b)[i]? = some 0) ∧
      (∀ x, parseSpecString k (goStr "0x" ++ hex.EncodeToString b) ≠ Value.version x) ∧
      (∀ x, parseSpecString k (goStr "0x" ++ hex.EncodeToString b) ≠ Value.bytes x) ∧
      parseSpecString (goStr "DOMAIN_FOO") (goStr "0x00000001") = Value.domainType [0, 0, 0, 1] := by
  have h : parseSpecString k (goStr "0x" ++ hex.EncodeToString b)
      = Value.domainType (copy [0, 0, 0, 0] b) := by
    simp only [parseSpecString, parseSpecString.domains, hk, trimPrefix_append,
      decode_encode b hb, if_true]
  refine ⟨h, ?_, ?_, ?_, ?_, ?_, by rfl⟩
  · rw [copy_zero4]; exact tag4_length b
  · rw [copy_zero4]; exact tag4_get_lt b
  · rw [copy_zero4]; exact tag4_get_ge b
  · intro x hx
    rw [h] at hx
    cases hx
  · intro x hx
    rw [h] at hx
    cases hx

/-- Witness of C2 at the key `DOMAIN_DEPOSIT` and the five bytes `03 00 00 00 ff`: the tag
is `[3, 0, 0, 0]`. -/
theorem parseSpecString_domain_witness :
    (strings.HasPrefix (goStr "DOMAIN_DEPOSIT") (goStr "DOMAIN_") = true ∧
      ∀ x ∈ [3, 0, 0, 0, 255], x < 256) ∧
    parseSpecString (goStr "DOMAIN_DEPOSIT") (goStr "0x" ++ hex.EncodeToString [3, 0, 0, 0, 255])
      = Value.domainType [3, 0, 0, 0] :=
  ⟨⟨by decide, by decide⟩,
    (parseSpecString_domain (goStr "DOMAIN_DEPOSIT") [3, 0, 0, 0, 255]
      (by decide) (by decide)).1⟩

/-- C9. For a key with suffix `_FORK_VERSION` and without prefix `DOMAIN_`, and bytes `b`
of any length, the value `"0x" ++ hex(b)` normalises to the version tag `d` obtained by
copying `b` into a zeroed array of 4 bytes: `d[i] = b[i]` for `i < min(4, len b)` and
`d[i] = 0` otherwise; the result is not a byte slice. -/
theorem parseSpecString_forkVersion (k : GoString) (b : List Nat)
    (hk : strings.HasSuffix k (goStr "_FORK_VERSION") = true)
    (hd : strings.HasPrefix k (goStr "DOMAIN_") = false) (hb : ∀ x ∈ b, x < 256) :
    parseSpecString k (goStr "0x" ++ hex.EncodeToString b)
        = Value.version (copy [0, 0, 0, 0] b) ∧
      (copy [0, 0, 0, 0] b).length = 4 ∧
      (∀ i, i < min 4 b.length → (copy [0, 0, 0, 0] b)[i]? = b[i]?) ∧
      (∀ i, min 4 b.length ≤ i → i < 4 → (copy [0, 0, 0, 0] b)[i]? = some 0) ∧
      (∀ x, parseSpecString k (goStr "0x" ++ hex.EncodeToString b) ≠ Value.bytes x) := by
  have h : parseSpecString k (goStr "0x" ++ hex.EncodeToString b)
      = Value.version (copy [0, 0, 0, 0] b) := by
    simp only [parseSpecString, parseSpecString.domains, parseSpecString.forkVersions, hk, hd,
      trimPrefix_append, decode_encode b hb, if_true]
    simp
  refine ⟨h, ?_, ?_, ?_, ?_⟩
  · rw [copy_zero4]; exact tag4_length b
  · rw [copy_zero4]; exact tag4_get_lt b
  · rw [copy_zero4]; exact tag4_get_ge b
  · intro x hx
    rw [h] at hx
    cases hx

/-- Witness of C9 at the key `ALTAIR_FORK_VERSION` and the two bytes `01 02`: the tag is
`[1, 2, 0, 0]`. -/
theorem parseSpecString_forkVersion_witness :
    (strings.HasSuffix (goStr "ALTAIR_FORK_VERSION") (goStr "_FORK_VERSION") = true ∧
      strings.HasPrefix (goStr "ALTAIR_FORK_VERSION") (goStr "DOMAIN_") = false ∧
      ∀ x ∈ [1, 2], x < 256) ∧
    parseSpecString (goStr "ALTAIR_FORK_VERSION") (goStr "0x" ++ hex.EncodeToString [1, 2])
      = Value.version [1, 2, 0, 0] :=
  ⟨⟨by decide, by decide, by decide⟩,
    (parseSpecString_forkVersion (goStr "ALTAIR_FORK_VERSION") [1, 2]
      (by decide) (by decide) (by decide)).1⟩

/-- C10. For a key without prefix `DOMAIN_` and without suffix `_FORK_VERSION` (whatever
else it is: ending in `_TIME`, starting with `SECONDS_PER_`, `GENESIS_DELAY`, empty) and
bytes `b` of any length, zero included, the value `"0x" ++ hex(b)` normalises to the byte
slice `b`. -/
theorem parseSpecString_hex_roundtrip (k : GoString) (b : List Nat)
    (hd : strings.HasPrefix k (goStr "DOMAIN_") = false)
    (hf : strings.HasSuffix k (goStr "_FORK_VERSION") = false) (hb : ∀ x ∈ b, x < 256) :
    parseSpecString k (goStr "0x" ++ hex.EncodeToString b) = Value.bytes b := by
  simp only [parseSpecString, parseSpecString.domains, parseSpecString.forkVersions,
    parseSpecString.hexStrings, hd, hf, hasPrefix_append, trimPrefix_append,
    decode_encode b hb, if_true]
  simp

/-- Witness of C10 at the key `GENESIS_TIME`, which ends in `_TIME`, and the bytes
`de ad be ef 00`. -/
theorem parseSpecString_hex_roundtrip_witness :
    (strings.HasPrefix (goStr "GENESIS_TIME") (goStr "DOMAIN_") = false ∧
      strings.HasSuffix (goStr "GENESIS_TIME") (goStr "_FORK_VERSION") = false ∧
      ∀ x ∈ [222, 173, 190, 239, 0], x < 256) ∧
    parseSpecString (goStr "GENESIS_TIME") (goStr "0x" ++ hex.EncodeToString [222, 173, 190, 239, 0])
      = Value.bytes [222, 173, 190, 239, 0] :=
  ⟨⟨by decide, by decide, by decide⟩,
    parseSpecString_hex_roundtrip (goStr "GENESIS_TIME") [222, 173, 190, 239, 0]
      (by decide) (by decide) (by decide)⟩

/-! ## The rules of `parseSpecString` that read a decimal value -/

theorem hasPrefix_split (k p : GoString) (h : strings.HasPrefix k p = true) :
    ∃ r, k = p ++ r := by
  simp only [strings.HasPrefix, Bool.and_eq_true, decide_eq_true_eq] at h
  refine ⟨k.drop p.length, ?_⟩
  conv_lhs => rw [← List.take_append_drop p.length k]
  rw [h.2]

theorem duration_key_not_domain (k : GoString)
    (hk : strings.HasPrefix k (goStr "SECONDS_PER_") = true ∨ k = goStr "GENESIS_DELAY") :
    strings.HasPrefix k (goStr "DOMAIN_") = false := by
  rcases hk with hk | hk
  · obtain ⟨r, rfl⟩ := hasPrefix_split k _ hk
    simp [strings.HasPrefix, goStr]
  · subst hk
    decide

/-- C3. For a key that starts with `SECONDS_PER_` or is `GENESIS_DELAY` and ends neither in
`_TIME` nor in `_FORK_VERSION`, and `0 <= n <= 9223372036`, the decimal rendering of `n`
normalises to the duration of `n` seconds (`n * 10^9` nanoseconds); and
`parseSpecString("GENESIS_DELAY", "0")` is the duration of 0 seconds, not the unsigned
integer 0. -/
theorem parseSpecString_duration (k : GoString) (n : Nat)
    (hk : strings.HasPrefix k (goStr "SECONDS_PER_") = true ∨ k = goStr "GENESIS_DELAY")
    (ht : strings.HasSuffix k (goStr "_TIME") = false)
    (hf : strings.HasSuffix k (goStr "_FORK_VERSION") = false)
    (hn : n ≤ 9223372036) :
    parseSpecString k (strconv.decimal n) = Value.duration ((n : Int) * time.Second) ∧
      time.Second = 1000000000 ∧
      parseSpecString (goStr "GENESIS_DELAY") (goStr "0") = Value.duration 0 ∧
      parseSpecString (goStr "GENESIS_DELAY") (goStr "0") ≠ Value.uint64 0 := by
  refine ⟨?_, rfl, by rfl, ?_⟩
  · have hd := duration_key_not_domain k hk
    have hk' : (strings.HasPrefix k (goStr "SECONDS_PER_") ||
        decide (k = goStr "GENESIS_DELAY")) = true := by
      rcases hk with hk | hk
      · simp [hk]
      · simp [hk]
    have hp := parseInt_decimal n (by omega)
    have hw : toInt64 ((n : Int) * time.Second) = (n : Int) * time.Second := by
      simp only [toInt64, time.Second]
      omega
    simp only [parseSpecString, parseSpecString.domains, parseSpecString.forkVersions,
      parseSpecString.hexStrings, parseSpecString.times, parseSpecString.durations,
      hd, ht, hf, decimal_not_hex, hk', hp, hw]
    simp
  · rw [show parseSpecString (goStr "GENESIS_DELAY") (goStr "0") = Value.duration 0 from rfl]
    intro h
    cases h

/-- Witness of C3 at the key `SECONDS_PER_SLOT` and `n = 12`: a duration of
12 000 000 000 nanoseconds. -/
theorem parseSpecString_duration_witness :
    ((strings.HasPrefix (goStr "SECONDS_PER_SLOT") (goStr "SECONDS_PER_") = true ∨
        goStr "SECONDS_PER_SLOT" = goStr "GENESIS_DELAY") ∧
      strings.HasSuffix (goStr "SECONDS_PER_SLOT") (goStr "_TIME") = false ∧
      strings.HasSuffix (goStr "SECONDS_PER_SLOT") (goStr "_FORK_VERSION") = false ∧
      12 ≤ 9223372036) ∧
    parseSpecString (goStr "SECONDS_PER_SLOT") (strconv.decimal 12)
      = Value.duration 12000000000 :=
  ⟨⟨by decide, by decide, by decide, by decide⟩,
    (parseSpecString_duration (goStr "SECONDS_PER_SLOT") 12
      (by decide) (by decide) (by decide) (by decide)).1⟩

/-! ## The shape of the result of `parseSpecString` -/

theorem domains_typed (k v : GoString) (r : Value) (h : parseSpecString.domains k v = some r) :
    r.isTyped = true := by
  unfold parseSpecString.domains at h
  split at h
  · split at h
    · cases h; rfl
    · cases h
  · cases h

theorem forkVersions_typed (k v : GoString) (r : Value)
    (h : parseSpecString.forkVersions k v = some r) : r.isTyped = true := by
  unfold parseSpecString.forkVersions at h
  split at h
  · split at h
    · cases h; rfl
    · cases h
  · cases h

theorem hexStrings_typed (v : GoString) (r : Value)
    (h : parseSpecString.hexStrings v = some r) : r.isTyped = true := by
  unfold parseSpecString.hexStrings at h
  split at h
  · split at h
    · cases h; rfl
    · cases h
  · cases h

theorem times_typed (k v : GoString) (r : Value) (h : parseSpecString.times k v = some r) :
    r.isTyped = true := by
  unfold parseSpecString.times at h
  split at h
  · split at h
    · split at h
      · cases h; rfl
      · cases h
    · cases h
  · cases h

theorem durations_typed (k v : GoString) (r : Value)
    (h : parseSpecString.durations k v = some r) : r.isTyped = true := by
  unfold parseSpecString.durations at h
  split at h
  · split at h
    · split at h
      · cases h; rfl
      · cases h
    · cases h
  · cases h

theorem integers_typed (v : GoString) (r : Value)
    (h : parseSpecString.integers v = some r) : r.isTyped = true := by
  unfold parseSpecString.integers at h
  split at h
  · cases h; rfl
  · split at h
    · split at h
      · cases h; rfl
      · cases h
    · cases h

/-- The result of `parseSpecString` is a value of one of the six converted types, or no
statement returned and it is the string itself. -/
theorem parseSpecString_cases (k v : GoString) :
    (parseSpecString k v).isTyped = true ∨ parseSpecString k v = Value.string v := by
  unfold parseSpecString
  split
  · next r h => exact Or.inl (domains_typed k v r h)
  · split
    · next r h => exact Or.inl (forkVersions_typed k v r h)
    · split
      · next r h => exact Or.inl (hexStrings_typed v r h)
      · split
        · next r h => exact Or.inl (times_typed k v r h)
        · split
          · next r h => exact Or.inl (durations_typed k v r h)
          · split
            · next r h => exact Or.inl (integers_typed v r h)
            · exact Or.inr rfl

theorem parseSpecString_string (k v s : GoString) (h : parseSpecString k v = Value.string s) :
    s = v := by
  rcases parseSpecString_cases k v with h1 | h1
  · rw [h] at h1
    cases h1
  · rw [h1] at h
    cases h
    rfl

/-- C4. When `v` with one leading `0x` removed does not decode as hexadecimal and `v`
parses neither as a signed nor as an unsigned base-10 64-bit integer, `parseSpecString`
returns the string `v` under every key; `("PRESET_BASE", "mainnet")` gives `"mainnet"`; and
whenever `parseSpecString(k, v)` is a string, it is `v`. -/
theorem parseSpecString_fallback (k v : GoString)
    (hhex : hex.DecodeString (strings.TrimPrefix v (goStr "0x")) = none)
    (hint : ∃ e, strconv.ParseInt v = .error e)
    (huint : ∃ e, strconv.ParseUint v = .error e) :
    parseSpecString k v = Value.string v ∧
      parseSpecString (goStr "PRESET_BASE") (goStr "mainnet") = Value.string (goStr "mainnet") ∧
      (∀ k' v' s : GoString, parseSpecString k' v' = Value.string s → s = v') := by
  refine ⟨?_, by rfl, parseSpecString_string⟩
  obtain ⟨e1, h1⟩ := hint
  obtain ⟨e2, h2⟩ := huint
  have h0 : v ≠ goStr "0" := by
    rintro rfl
    have h3 : strconv.ParseUint (goStr "0") = .ok 0 := by rfl
    rw [h3] at h2
    cases h2
  simp [parseSpecString, parseSpecString.domains, parseSpecString.forkVersions,
    parseSpecString.hexStrings, parseSpecString.times, parseSpecString.durations,
    parseSpecString.integers, hhex, h1, h2, h0]

/-- Witness of C4 at the key `DOMAIN_X_TIME` and the value `0xzz`, which has the prefix `0x`
but is no hexadecimal string and no integer. -/
theorem parseSpecString_fallback_witness :
    (hex.DecodeString (strings.TrimPrefix (goStr "0xzz") (goStr "0x")) = none ∧
      (∃ e, strconv.ParseInt (goStr "0xzz") = .error e) ∧
      (∃ e, strconv.ParseUint (goStr "0xzz") = .error e)) ∧
    parseSpecString (goStr "DOMAIN_X_TIME") (goStr "0xzz") = Value.string (goStr "0xzz") :=
  ⟨⟨by decide, ⟨_, rfl⟩, ⟨_, rfl⟩⟩,
    (parseSpecString_fallback (goStr "DOMAIN_X_TIME") (goStr "0xzz")
      (by decide) ⟨_, rfl⟩ ⟨_, rfl⟩).1⟩

/-! ## Lemmas: maps as entry lists -/

theorem mapSet_of_not_mem (m : SpecMap) (k : GoString) (v : Value) (h : k ∉ mapKeys m) :
    mapSet m k v = m ++ [(k, v)] := by
  induction m with
  | nil => rfl
  | cons e rest ih =>
    obtain ⟨k', v'⟩ := e
    simp only [mapKeys, List.map_cons, List.mem_cons, not_or] at h
    have hne : ¬ k' = k := fun h' => h.1 h'.symm
    simp only [mapSet, hne, if_false, List.cons_append]
    rw [ih h.2]

theorem mapKeys_mapSet (m : SpecMap) (k : GoString) (v : Value) :
    mapKeys (mapSet m k v) = if k ∈ mapKeys m then mapKeys m else mapKeys m ++ [k] := by
  induction m with
  | nil => simp [mapSet, mapKeys]
  | cons e rest ih =>
    obtain ⟨k', v'⟩ := e
    by_cases hk : k' = k
    · subst hk
      simp [mapSet, mapKeys]
    · have hk' : ¬ k = k' := fun h => hk h.symm
      simp only [mapKeys] at ih
      simp only [mapSet, hk, if_false, mapKeys, List.map_cons, List.mem_cons, hk', false_or, ih]
      split <;> simp

theorem mapKeys_mapSet_nodup (m : SpecMap) (k : GoString) (v : Value)
    (h : (mapKeys m).Nodup) : (mapKeys (mapSet m k v)).Nodup := by
  rw [mapKeys_mapSet]
  split
  · exact h
  · next hk =>
    rw [List.nodup_append]
    refine ⟨h, List.nodup_singleton k, ?_⟩
    intro a ha hb
    simp only [List.mem_singleton] at hb
    subst hb
    exact hk ha

theorem mem_mapSet (m : SpecMap) (k : GoString) (v : Value) (e : GoString × Value)
    (h : e ∈ mapSet m k v) : e ∈ m ∨ e = (k, v) := by
  induction m with
  | nil =>
    simp only [mapSet, List.mem_singleton] at h
    exact Or.inr h
  | cons e' rest ih =>
    obtain ⟨k', v'⟩ := e'
    simp only [mapSet] at h
    split at h
    · rcases List.mem_cons.1 h with h | h
      · exact Or.inr h
      · exact Or.inl (List.mem_cons_of_mem _ h)
    · rcases List.mem_cons.1 h with h | h
      · exact Or.inl (h ▸ List.mem_cons_self _ _)
      · rcases ih h with h | h
        · exact Or.inl (List.mem_cons_of_mem _ h)
        · exact Or.inr h

/-! ## Lemmas: the loop of `parseSpecMap` -/

theorem parseSpecMapLoop_nodup (data : SpecMap) : ∀ config : SpecMap,
    (mapKeys config).Nodup → (mapKeys (parseSpecMapLoop data config)).Nodup := by
  induction data with
  | nil => intro config h; simpa [parseSpecMapLoop] using h
  | cons e rest ih =>
    intro config h
    obtain ⟨k, v⟩ := e
    rw [parseSpecMapLoop]
    exact ih _ (mapKeys_mapSet_nodup config k _ h)

theorem mem_parseSpecMapLoop (data : SpecMap) : ∀ (config : SpecMap) (e : GoString × Value),
    e ∈ parseSpecMapLoop data config →
      e ∈ config ∨ ∃ v, (e.1, v) ∈ data ∧ e.2 = parseSpecValue e.1 v := by
  induction data with
  | nil => intro config e h; exact Or.inl (by simpa [parseSpecMapLoop] using h)
  | cons e' rest ih =>
    intro config e h
    obtain ⟨k, v⟩ := e'
    rw [parseSpecMapLoop] at h
    rcases ih _ e h with h | ⟨w, hw, he⟩
    · rcases mem_mapSet config k _ e h with h | h
      · exact Or.inl h
      · subst h
        exact Or.inr ⟨v, List.mem_cons_self _ _, rfl⟩
    · exact Or.inr ⟨w, List.mem_cons_of_mem _ hw, he⟩

/-- On a map, whose keys are distinct, the loop adds the image of each entry in order. -/
theorem parseSpecMapLoop_of_nodup (data : SpecMap) : ∀ config : SpecMap,
    (mapKeys config ++ mapKeys data).Nodup →
      parseSpecMapLoop data config
        = config ++ data.map (fun e => (e.1, parseSpecValue e.1 e.2)) := by
  induction data with
  | nil => intro config _; simp [parseSpecMapLoop]
  | cons e rest ih =>
    intro config h
    obtain ⟨k, v⟩ := e
    have hk : k ∉ mapKeys config := by
      intro hmem
      rw [List.nodup_append] at h
      exact h.2.2 hmem (by simp [mapKeys])
    rw [parseSpecMapLoop, mapSet_of_not_mem config k _ hk, ih]
    · simp
    · simpa [mapKeys, List.append_assoc] using h

theorem parseSpecMap_of_nodup (data : SpecMap) (h : (mapKeys data).Nodup) :
    parseSpecMap data = data.map (fun e => (e.1, parseSpecValue e.1 e.2)) := by
  have := parseSpecMapLoop_of_nodup data [] (by simpa [mapKeys] using h)
  simpa [parseSpecMap] using this

/-! ## Lemmas: a second pass of the normaliser -/

theorem parseSpecValue_typed (k : GoString) (r : Value) (h : r.isTyped = true) :
    parseSpecValue k r = r := by
  cases r <;> first | rfl | cases h

theorem parseSpecValue_parseSpecString (k v : GoString) :
    parseSpecValue k (parseSpecString k v) = parseSpecString k v := by
  rcases parseSpecString_cases k v with h | h
  · exact parseSpecValue_typed k _ h
  · rw [h, parseSpecValue, h]

theorem parseSpecArray_idem (a : List Value)
    (h : ∀ v ∈ a, parseSpecValue [] (parseSpecValue [] v) = parseSpecValue [] v) :
    parseSpecArray (parseSpecArray a) = parseSpecArray a := by
  induction a with
  | nil => rfl
  | cons v rest ih =>
    simp only [parseSpecArray]
    rw [h v (List.mem_cons_self _ _), ih (fun w hw => h w (List.mem_cons_of_mem _ hw))]

theorem parseSpecMap_idem (m : SpecMap)
    (h : ∀ e ∈ m, ∀ k, parseSpecValue k (parseSpecValue k e.2) = parseSpecValue k e.2) :
    parseSpecMap (parseSpecMap m) = parseSpecMap m := by
  have hnd : (mapKeys (parseSpecMap m)).Nodup :=
    parseSpecMapLoop_nodup m [] (by simp [mapKeys])
  rw [parseSpecMap_of_nodup _ hnd]
  conv_rhs => rw [← List.map_id (parseSpecMap m)]
  apply List.map_congr_left
  intro e he
  rcases mem_parseSpecMapLoop m [] e he with h0 | ⟨v, hv, hev⟩
  · cases h0
  · have := h (e.1, v) hv e.1
    simp only at this
    rw [← hev] at this
    rw [this]
    rfl

theorem parseSpecValue_idem_aux : ∀ n : Nat, ∀ v : Value, sizeOf v ≤ n →
    ∀ k, parseSpecValue k (parseSpecValue k v) = parseSpecValue k v := by
  intro n
  induction n with
  | zero =>
    intro v hv
    cases v <;> simp at hv
  | succ n ih =>
    intro v hv k
    cases v with
    | string s => 
      rw [parseSpecValue]
      exact parseSpecValue_parseSpecString k s
    | slice xs =>
      rw [parseSpecValue, parseSpecValue]
      congr 1
      apply parseSpecArray_idem
      intro w hw
      have h1 := List.sizeOf_lt_of_mem hw
      simp only [Value.slice.sizeOf_spec] at hv
      exact ih w (by omega) []
    | map m =>
      rw [parseSpecValue, parseSpecValue]
      congr 1
      apply parseSpecMap_idem
      intro e he k'
      have h1 := List.sizeOf_lt_of_mem he
      obtain ⟨k0, v0⟩ := e
      simp only [Value.map.sizeOf_spec, Prod.mk.sizeOf_spec] at hv h1
      exact ih v0 (by omega) k'
    | _ => rfl

/-! ## Idempotence of the normaliser -/

/-- C1. A second pass of the normaliser changes nothing: `parseSpecMap (parseSpecMap t)` is
`parseSpecMap t` for every map `t`, `parseSpecArray (parseSpecArray a)` is `parseSpecArray a`
for every array `a`, whatever their leaves are; a leaf that `parseSpecString` produced,
typed or the string left by the fallback, is unchanged by the switch under the same key;
and a domain tag, version tag, byte slice, timestamp, duration or unsigned integer is
unchanged under every key. -/
theorem parseSpec_idempotent :
    (∀ t : SpecMap, parseSpecMap (parseSpecMap t) = parseSpecMap t) ∧
      (∀ a : List Value, parseSpecArray (parseSpecArray a) = parseSpecArray a) ∧
      (∀ k v : GoString, parseSpecValue k (parseSpecString k v) = parseSpecString k v) ∧
      (∀ k v : GoString, parseSpecString k v = Value.string v →
        parseSpecValue k (Value.string v) = Value.string v) ∧
      (∀ (k : GoString) (d : List Nat),
        parseSpecValue k (Value.domainType d) = Value.domainType d ∧
        parseSpecValue k (Value.version d) = Value.version d ∧
        parseSpecValue k (Value.bytes d) = Value.bytes d) ∧
      (∀ (k : GoString) (t : time.Time) (d : Int) (n : Nat),
        parseSpecValue k (Value.time t) = Value.time t ∧
        parseSpecValue k (Value.duration d) = Value.duration d ∧
        parseSpecValue k (Value.uint64 n) = Value.uint64 n) := by
  refine ⟨?_, ?_, parseSpecValue_parseSpecString, ?_, ?_, ?_⟩
  · intro t
    exact parseSpecMap_idem t (fun e _ k => parseSpecValue_idem_aux _ e.2 (Nat.le_refl _) k)
  · intro a
    exact parseSpecArray_idem a (fun v _ => parseSpecValue_idem_aux _ v (Nat.le_refl _) [])
  · intro k v h
    rw [parseSpecValue, h]
  · intro k d
    exact ⟨rfl, rfl, rfl⟩
  · intro k t d n
    exact ⟨rfl, rfl, rfl⟩

/-! ## Lemmas: reading a map -/

theorem mapGet_mapSet (m : SpecMap) (k k' : GoString) (v : Value) :
    mapGet (mapSet m k v) k' = if k = k' then some v else mapGet m k' := by
  induction m with
  | nil => simp [mapSet, mapGet]
  | cons e rest ih =>
    obtain ⟨k0, v0⟩ := e
    by_cases h0 : k0 = k
    · subst h0
      simp only [mapSet, if_true, mapGet]
      split <;> rfl
    · simp only [mapSet, h0, if_false, mapGet, ih]
      by_cases h1 : k0 = k'
      · subst h1
        have : ¬ k = k0 := fun h => h0 h.symm
        simp [this]
      · simp [h1]

theorem mapGet_isSome (m : SpecMap) (k : GoString) :
    (mapGet m k).isSome = true ↔ k ∈ mapKeys m := by
  induction m with
  | nil => simp [mapGet, mapKeys]
  | cons e rest ih =>
    obtain ⟨k0, v0⟩ := e
    simp only [mapKeys] at ih
    by_cases h0 : k0 = k
    · subst h0
      simp [mapGet, mapKeys]
    · have : ¬ k = k0 := fun h => h0 h.symm
      simp [mapGet, mapKeys, h0, this, ih]

theorem mapGet_eq_none (m : SpecMap) (k : GoString) (h : k ∉ mapKeys m) : mapGet m k = none := by
  have := (mapGet_isSome m k).not.2 h
  simpa using this

theorem mapGet_of_mem (m : SpecMap) (k : GoString) (v : Value) (hnd : (mapKeys m).Nodup)
    (h : (k, v) ∈ m) : mapGet m k = some v := by
  induction m with
  | nil => cases h
  | cons e rest ih =>
    obtain ⟨k0, v0⟩ := e
    simp only [mapKeys, List.map_cons, List.nodup_cons] at hnd
    rcases List.mem_cons.1 h with h | h
    · cases h
      simp [mapGet]
    · have hk : k ∈ rest.map Prod.fst := List.mem_map.2 ⟨(k, v), h, rfl⟩
      have : ¬ k0 = k := by
        rintro rfl
        exact hnd.1 hk
      simp only [mapGet, this, if_false]
      exact ih hnd.2 h

/-- The statement `if _, exists := m[k]; !exists { m[k] = d }` read back: an entry of `m`
is kept, and `k` gets `d` when it has none. -/
theorem mapGet_default (m : SpecMap) (k k' : GoString) (d : Value) :
    mapGet (if (mapGet m k).isNone then mapSet m k d else m) k'
      = match mapGet m k' with
        | some x => some x
        | none => if k = k' then some d else none := by
  by_cases hk : k = k'
  · subst hk
    cases h : mapGet m k with
    | none => simp [mapGet_mapSet]
    | some x => simp [h]
  · cases h : mapGet m k with
    | none =>
      simp only [Option.isNone_none, if_true, mapGet_mapSet, hk, if_false]
      cases mapGet m k' <;> rfl
    | some x =>
      simp only [Option.isNone_some, Bool.false_eq_true, if_false, hk]
      cases mapGet m k' <;> rfl

theorem mem_mapKeys_parseSpecMapLoop (data : SpecMap) : ∀ (config : SpecMap) (k : GoString),
    k ∈ mapKeys (parseSpecMapLoop data config) ↔ k ∈ mapKeys config ∨ k ∈ mapKeys data := by
  induction data with
  | nil => intro config k; simp [parseSpecMapLoop, mapKeys]
  | cons e rest ih =>
    intro config k
    obtain ⟨k0, v0⟩ := e
    rw [parseSpecMapLoop, ih, mapKeys_mapSet]
    simp only [mapKeys, List.map_cons, List.mem_cons]
    split
    · next h =>
      constructor
      · rintro (h1 | h1)
        · exact Or.inl h1
        · exact Or.inr (Or.inr h1)
      · rintro (h1 | h1 | h1)
        · exact Or.inl h1
        · subst h1; exact Or.inl h
        · exact Or.inr h1
    · simp only [List.mem_append, List.mem_singleton]
      tauto

theorem mem_mapKeys_parseSpecMap (data : SpecMap) (k : GoString) :
    k ∈ mapKeys (parseSpecMap data) ↔ k ∈ mapKeys data := by
  rw [parseSpecMap, mem_mapKeys_parseSpecMapLoop]
  simp [mapKeys]

theorem mapGet_parseSpecMap (data : SpecMap) (hnd : (mapKeys data).Nodup) (k : GoString)
    (v : Value) (h : (k, v) ∈ data) :
    mapGet (parseSpecMap data) k = some (parseSpecValue k v) := by
  apply mapGet_of_mem _ _ _ (parseSpecMapLoop_nodup data [] (by simp [mapKeys]))
  have h1 := parseSpecMap_of_nodup data hnd
  rw [parseSpecMap] at h1
  rw [h1]
  exact List.mem_map.2 ⟨(k, v), h, rfl⟩


/-! ## Lemmas: one call of `Spec` -/

section
open http

theorem mapGet_default3 (c0 : SpecMap) (k1 k2 k3 k : GoString) (d1 d2 d3 : Value) :
    mapGet
        (if (mapGet
              (if (mapGet (if (mapGet c0 k1).isNone then mapSet c0 k1 d1 else c0) k2).isNone then
                mapSet (if (mapGet c0 k1).isNone then mapSet c0 k1 d1 else c0) k2 d2
              else (if (mapGet c0 k1).isNone then mapSet c0 k1 d1 else c0)) k3).isNone then
          mapSet
            (if (mapGet (if (mapGet c0 k1).isNone then mapSet c0 k1 d1 else c0) k2).isNone then
              mapSet (if (mapGet c0 k1).isNone then mapSet c0 k1 d1 else c0) k2 d2
            else (if (mapGet c0 k1).isNone then mapSet c0 k1 d1 else c0)) k3 d3
        else
          (if (mapGet (if (mapGet c0 k1).isNone then mapSet c0 k1 d1 else c0) k2).isNone then
            mapSet (if (mapGet c0 k1).isNone then mapSet c0 k1 d1 else c0) k2 d2
          else (if (mapGet c0 k1).isNone then mapSet c0 k1 d1 else c0))) k
      = match mapGet c0 k with
        | some x => some x
        | none =>
          if k1 = k then some d1 else if k2 = k then some d2 else if k3 = k then some d3
          else none := by
  generalize hc1 : (if (mapGet c0 k1).isNone then mapSet c0 k1 d1 else c0) = c1
  generalize hc2 : (if (mapGet c1 k2).isNone then mapSet c1 k2 d2 else c1) = c2
  rw [mapGet_default c2 k3 k d3, ← hc2, mapGet_default c1 k2 k d2, ← hc1,
    mapGet_default c0 k1 k d1]
  cases mapGet c0 k with
  | some x => rfl
  | none =>
    by_cases h1 : k1 = k
    · simp [h1]
    · by_cases h2 : k2 = k
      · simp [h1, h2]
      · simp [h1, h2]

/-- A call on an empty cache whose fetch and decode succeed: the map returned is the map
stored, one successful `s.get` is recorded, and the map reads as the normalised fetched map
completed by the three defaults. -/
theorem Spec_populates (s : Service) (c : Collaborators) (o : SpecOpts) (resp : httpResponse)
    (t metadata : SpecMap) (hs : s.spec = none) (ha : c.assertIsActive = none)
    (hg : c.get (goStr "/eth/v1/config/spec") o.Common = .ok resp)
    (hd : c.decodeJSONResponse resp.body = .ok (t, metadata)) :
    ∃ config : SpecMap,
      s.Spec c (some o) = (.ok { Data := config, Metadata := metadata },
        { spec := some config, gets := ⟨goStr "/eth/v1/config/spec", true⟩ :: s.gets }) ∧
      ∀ k : GoString, mapGet config k =
        match mapGet (parseSpecMap t) k with
        | some x => some x
        | none =>
          if goStr "DOMAIN_APPLICATION_MASK" = k then some (Value.domainType [0, 0, 0, 1])
          else if goStr "DOMAIN_BLS_TO_EXECUTION_CHANGE" = k then
            some (Value.domainType [10, 0, 0, 0])
          else if goStr "DOMAIN_APPLICATION_BUILDER" = k then
            some (Value.domainType [0, 0, 0, 1])
          else none := by
  refine ⟨_, ?_, fun k => mapGet_default3 (parseSpecMap t) _ _ _ k _ _ _⟩
  simp only [Service.Spec, ha, hs, hg, hd]


/-! ## The configuration cache -/

/-- C5. When `Spec` is called on an empty cache and the fetch and the decode succeed with
the raw map `t`, the map `config` it returns is the map it stores; `config` has the keys
`DOMAIN_APPLICATION_MASK`, `DOMAIN_BLS_TO_EXECUTION_CHANGE` and
`DOMAIN_APPLICATION_BUILDER`; each of them that is no key of `t` has its default tag
(`00 00 00 01`, `0a 00 00 00`, `00 00 00 01`); every key of `t`, these three included, reads
in `config` as in the normalised map `parseSpecMap t`, which for a map `t` (distinct keys)
is the normalised value of the entry fetched; and `config` has no key besides those of `t`
and the three. -/
theorem Spec_defaults (s : Service) (c : Collaborators) (o : SpecOpts) (resp : httpResponse)
    (t metadata : SpecMap) (hs : s.spec = none) (ha : c.assertIsActive = none)
    (hg : c.get (goStr "/eth/v1/config/spec") o.Common = .ok resp)
    (hd : c.decodeJSONResponse resp.body = .ok (t, metadata)) :
    ∃ config : SpecMap,
      (s.Spec c (some o)).1 = .ok { Data := config, Metadata := metadata } ∧
      (s.Spec c (some o)).2.spec = some config ∧
      (goStr "DOMAIN_APPLICATION_MASK" ∈ mapKeys config ∧
        goStr "DOMAIN_BLS_TO_EXECUTION_CHANGE" ∈ mapKeys config ∧
        goStr "DOMAIN_APPLICATION_BUILDER" ∈ mapKeys config) ∧
      (goStr "DOMAIN_APPLICATION_MASK" ∉ mapKeys t →
        mapGet config (goStr "DOMAIN_APPLICATION_MASK")
          = some (Value.domainType [0x00, 0x00, 0x00, 0x01])) ∧
      (goStr "DOMAIN_BLS_TO_EXECUTION_CHANGE" ∉ mapKeys t →
        mapGet config (goStr "DOMAIN_BLS_TO_EXECUTION_CHANGE")
          = some (Value.domainType [0x0a, 0x00, 0x00, 0x00])) ∧
      (goStr "DOMAIN_APPLICATION_BUILDER" ∉ mapKeys t →
        mapGet config (goStr "DOMAIN_APPLICATION_BUILDER")
          = some (Value.domainType [0x00, 0x00, 0x00, 0x01])) ∧
      (∀ k ∈ mapKeys t, mapGet config k = mapGet (parseSpecMap t) k) ∧
      ((mapKeys t).Nodup → ∀ k v, (k, v) ∈ t → mapGet config k = some (parseSpecValue k v)) ∧
      (∀ k ∈ mapKeys config, k ∈ mapKeys t ∨ k = goStr "DOMAIN_APPLICATION_MASK" ∨
        k = goStr "DOMAIN_BLS_TO_EXECUTION_CHANGE" ∨ k = goStr "DOMAIN_APPLICATION_BUILDER") := by
  obtain ⟨config, hspec, hget⟩ := Spec_populates s c o resp t metadata hs ha hg hd
  have hnone : ∀ k, k ∉ mapKeys t → mapGet (parseSpecMap t) k = none := fun k hk =>
    mapGet_eq_none _ _ (fun h => hk ((mem_mapKeys_parseSpecMap t k).1 h))
  have hkept : ∀ k ∈ mapKeys t, mapGet config k = mapGet (parseSpecMap t) k := by
    intro k hk
    have h1 := (mapGet_isSome (parseSpecMap t) k).2 ((mem_mapKeys_parseSpecMap t k).2 hk)
    rw [hget k]
    cases h2 : mapGet (parseSpecMap t) k with
    | some x => rfl
    | none => rw [h2] at h1; cases h1
  have hin : ∀ k, (k = goStr "DOMAIN_APPLICATION_MASK" ∨
      k = goStr "DOMAIN_BLS_TO_EXECUTION_CHANGE" ∨ k = goStr "DOMAIN_APPLICATION_BUILDER") →
      k ∈ mapKeys config := by
    intro k hk
    rw [← mapGet_isSome, hget k]
    cases mapGet (parseSpecMap t) k with
    | some x => rfl
    | none =>
      rcases hk with rfl | rfl | rfl
      · rfl
      · rfl
      · rfl
  refine ⟨config, by rw [hspec], by rw [hspec], ⟨hin _ (Or.inl rfl), hin _ (Or.inr (Or.inl rfl)),
    hin _ (Or.inr (Or.inr rfl))⟩, ?_, ?_, ?_, hkept, ?_, ?_⟩
  · intro h
    rw [hget, hnone _ h]
    rfl
  · intro h
    rw [hget, hnone _ h]
    rfl
  · intro h
    rw [hget, hnone _ h]
    rfl
  · intro hnd k v hkv
    rw [hkept k (List.mem_map.2 ⟨(k, v), hkv, rfl⟩)]
    exact mapGet_parseSpecMap t hnd k v hkv
  · intro k hk
    have h1 := (mapGet_isSome config k).2 hk
    rw [hget k] at h1
    cases h2 : mapGet (parseSpecMap t) k with
    | some x =>
      exact Or.inl ((mem_mapKeys_parseSpecMap t k).1
        ((mapGet_isSome _ k).1 (by rw [h2]; rfl)))
    | none =>
      rw [h2] at h1
      right
      by_cases e1 : goStr "DOMAIN_APPLICATION_MASK" = k
      · exact Or.inl e1.symm
      · by_cases e2 : goStr "DOMAIN_BLS_TO_EXECUTION_CHANGE" = k
        · exact Or.inr (Or.inl e2.symm)
        · by_cases e3 : goStr "DOMAIN_APPLICATION_BUILDER" = k
          · exact Or.inr (Or.inr e3.symm)
          · simp [e1, e2, e3] at h1

/-- Witness of C5: a fetched map that has `DOMAIN_APPLICATION_MASK` (as `0x02000000`) and
`PRESET_BASE`, and lacks the two other keys; the stored map keeps the fetched mask and has
the default for `DOMAIN_BLS_TO_EXECUTION_CHANGE`. -/
theorem Spec_defaults_witness :
    (Service.initial.spec = none ∧
      (replying (goStr "json") [(goStr "DOMAIN_APPLICATION_MASK", Value.string (goStr "0x02000000")),
        (goStr "PRESET_BASE", Value.string (goStr "mainnet"))]).assertIsActive = none) ∧
    ∃ config : SpecMap,
      (Service.initial.Spec
        (replying (goStr "json") [(goStr "DOMAIN_APPLICATION_MASK", Value.string (goStr "0x02000000")),
          (goStr "PRESET_BASE", Value.string (goStr "mainnet"))])
        (some { Common := { Timeout := 0 } })).2.spec = some config ∧
      mapGet config (goStr "DOMAIN_BLS_TO_EXECUTION_CHANGE")
        = some (Value.domainType [0x0a, 0x00, 0x00, 0x00]) ∧
      mapGet config (goStr "DOMAIN_APPLICATION_MASK") = some (Value.domainType [2, 0, 0, 0]) := by
  refine ⟨⟨rfl, rfl⟩, ?_⟩
  obtain ⟨config, -, h2, -, -, h5, -, -, h8, -⟩ :=
    Spec_defaults Service.initial
      (replying (goStr "json") [(goStr "DOMAIN_APPLICATION_MASK", Value.string (goStr "0x02000000")),
        (goStr "PRESET_BASE", Value.string (goStr "mainnet"))])
      { Common := { Timeout := 0 } } { body := goStr "json" }
      [(goStr "DOMAIN_APPLICATION_MASK", Value.string (goStr "0x02000000")),
        (goStr "PRESET_BASE", Value.string (goStr "mainnet"))] [] rfl rfl rfl rfl
  exact ⟨config, h2, h5 (by decide),
    h8 (by decide) _ _ (List.mem_cons_self _ _)⟩

theorem Spec_populated (s : Service) (c : Collaborators) (opts : Option SpecOpts) (m : SpecMap)
    (hs : s.spec = some m) :
    (s.Spec c opts).2 = s ∧
      ((s.Spec c opts).1 = .ok { Data := m, Metadata := [] } ∨
        ∃ e, (s.Spec c opts).1 = .error e) ∧
      (c.assertIsActive = none → opts ≠ none →
        (s.Spec c opts).1 = .ok { Data := m, Metadata := [] }) := by
  unfold Service.Spec
  cases ha : c.assertIsActive with
  | some err => exact ⟨rfl, Or.inr ⟨err, rfl⟩, fun h => by cases h⟩
  | none =>
    cases opts with
    | none => exact ⟨rfl, Or.inr ⟨_, rfl⟩, fun _ h => absurd rfl h⟩
    | some o =>
      simp [hs]

theorem Spec_empty (s : Service) (c : Collaborators) (opts : Option SpecOpts)
    (hs : s.spec = none) :
    ((s.Spec c opts).2.spec = none ∧ ∃ e, (s.Spec c opts).1 = .error e) ∨
      ∃ config metadata, (s.Spec c opts).2.spec = some config ∧
        (s.Spec c opts).1 = .ok { Data := config, Metadata := metadata } := by
  unfold Service.Spec
  cases ha : c.assertIsActive with
  | some err => exact Or.inl ⟨hs, err, rfl⟩
  | none =>
    cases opts with
    | none => exact Or.inl ⟨hs, _, rfl⟩
    | some o =>
      simp only [hs]
      cases hg : c.get (goStr "/eth/v1/config/spec") o.Common with
      | error err => exact Or.inl ⟨rfl, err, rfl⟩
      | ok resp =>
        simp only
        cases hd : c.decodeJSONResponse resp.body with
        | error err => exact Or.inl ⟨rfl, err, rfl⟩
        | ok dm => exact Or.inr ⟨_, _, rfl, rfl⟩

/-- A call on an empty cache by an active service with options asks `s.get` once. -/
theorem Spec_empty_gets (s : Service) (c : Collaborators) (o : SpecOpts)
    (hs : s.spec = none) (ha : c.assertIsActive = none) :
    ∃ ok, (s.Spec c (some o)).2.gets = ⟨goStr "/eth/v1/config/spec", ok⟩ :: s.gets := by
  unfold Service.Spec
  simp only [ha, hs]
  cases hg : c.get (goStr "/eth/v1/config/spec") o.Common with
  | error err => exact ⟨false, rfl⟩
  | ok resp =>
    simp only
    cases hd : c.decodeJSONResponse resp.body with
    | error err => exact ⟨true, rfl⟩
    | ok dm => exact ⟨true, rfl⟩

/-- C6. When `Spec` is called by an active service with options on an empty cache and the
remote fetch, or else the decode, returns the error `e`, then `Spec` returns `e` and no
response, the cache is still empty afterwards, and the next call (active service, options)
calls `s.get` again. -/
theorem Spec_failure_not_cached (s : Service) (c : Collaborators) (o : SpecOpts) (e : Error)
    (hs : s.spec = none) (ha : c.assertIsActive = none)
    (hfail : c.get (goStr "/eth/v1/config/spec") o.Common = .error e ∨
      ∃ resp, c.get (goStr "/eth/v1/config/spec") o.Common = .ok resp ∧
        c.decodeJSONResponse resp.body = .error e) :
    (s.Spec c (some o)).1 = .error e ∧
      (s.Spec c (some o)).2.spec = none ∧
      (∀ (c' : Collaborators) (o' : SpecOpts), c'.assertIsActive = none →
        ∃ ok, ((s.Spec c (some o)).2.Spec c' (some o')).2.gets
          = ⟨goStr "/eth/v1/config/spec", ok⟩ :: (s.Spec c (some o)).2.gets) := by
  have h : (s.Spec c (some o)).1 = .error e ∧ (s.Spec c (some o)).2.spec = none := by
    unfold Service.Spec
    rcases hfail with hg | ⟨resp, hg, hd⟩
    · simp [ha, hs, hg]
    · simp [ha, hs, hg, hd]
  exact ⟨h.1, h.2, fun c' o' ha' => Spec_empty_gets _ c' o' h.2 ha'⟩

/-- Witness of C6: the fetch succeeds with the body `<html>`, which the decoder rejects
with the error `upstream 1`. -/
theorem Spec_failure_not_cached_witness :
    (Service.initial.spec = none ∧ (replying (goStr "<html>") []).assertIsActive = none ∧
      ((replying (goStr "<html>") []).get (goStr "/eth/v1/config/spec") { Timeout := 0 }
          = .error (Error.upstream 1) ∨
        ∃ resp, (replying (goStr "<html>") []).get (goStr "/eth/v1/config/spec") { Timeout := 0 }
            = .ok resp ∧
          (replying (goStr "<html>") []).decodeJSONResponse resp.body
            = .error (Error.upstream 1))) ∧
    (Service.initial.Spec (replying (goStr "<html>") [])
        (some { Common := { Timeout := 0 } })).1 = .error (Error.upstream 1) ∧
    (Service.initial.Spec (replying (goStr "<html>") [])
        (some { Common := { Timeout := 0 } })).2.spec = none :=
  ⟨⟨rfl, rfl, Or.inr ⟨{ body := goStr "<html>" }, rfl, rfl⟩⟩,
    (Spec_failure_not_cached Service.initial (replying (goStr "<html>") [])
      { Common := { Timeout := 0 } } (Error.upstream 1) rfl rfl
      (Or.inr ⟨{ body := goStr "<html>" }, rfl, rfl⟩)).1,
    (Spec_failure_not_cached Service.initial (replying (goStr "<html>") [])
      { Common := { Timeout := 0 } } (Error.upstream 1) rfl rfl
      (Or.inr ⟨{ body := goStr "<html>" }, rfl, rfl⟩)).2.1⟩

theorem runSpec_populated (calls : List Call) : ∀ (s : Service) (m : SpecMap),
    s.spec = some m →
      (runSpec calls s).2 = s ∧
      (∀ a, Except.ok a ∈ (runSpec calls s).1 → a.Data = m) ∧
      populations calls s = 0 := by
  induction calls with
  | nil =>
    intro s m _
    refine ⟨rfl, ?_, rfl⟩
    intro a h
    simp [runSpec] at h
  | cons call rest ih =>
    intro s m hs
    obtain ⟨h1, h2, -⟩ := Spec_populated s call.collaborators call.opts m hs
    obtain ⟨i1, i2, i3⟩ := ih s m hs
    simp only [runSpec, populations, h1, hs]
    refine ⟨i1, ?_, by simpa using i3⟩
    intro a ha
    rcases List.mem_cons.1 ha with ha | ha
    · rcases h2 with h2 | ⟨e, h2⟩
      · rw [h2] at ha
        cases ha
        rfl
      · rw [h2] at ha
        cases ha
    · exact i2 a ha

theorem runSpec_once (calls : List Call) : ∀ s : Service,
    populations calls s ≤ 1 ∧
      ∀ a b, Except.ok a ∈ (runSpec calls s).1 → Except.ok b ∈ (runSpec calls s).1 →
        a.Data = b.Data := by
  induction calls with
  | nil =>
    intro s
    refine ⟨Nat.zero_le _, ?_⟩
    intro a b h
    simp [runSpec] at h
  | cons call rest ih =>
    intro s
    cases hs : s.spec with
    | some m =>
      obtain ⟨-, h2, h3⟩ := runSpec_populated (call :: rest) s m hs
      exact ⟨by omega, fun a b ha hb => (h2 a ha).trans (h2 b hb).symm⟩
    | none =>
      rcases Spec_empty s call.collaborators call.opts hs with ⟨h1, e, h2⟩ | ⟨config, md, h1, h2⟩
      · obtain ⟨i1, i2⟩ := ih (s.Spec call.collaborators call.opts).2
        simp only [runSpec, populations, h1, h2, hs]
        refine ⟨by simpa using i1, ?_⟩
        intro a b ha hb
        rcases List.mem_cons.1 ha with ha | ha
        · cases ha
        · rcases List.mem_cons.1 hb with hb | hb
          · cases hb
          · exact i2 a b ha hb
      · obtain ⟨-, j2, j3⟩ := runSpec_populated rest _ config h1
        simp only [runSpec, populations, h1, h2, hs, j3]
        refine ⟨by simp, ?_⟩
        have key : ∀ a, Except.ok a ∈
            (Except.ok { Data := config, Metadata := md } : Except Error Response)
              :: (runSpec rest (s.Spec call.collaborators call.opts).2).1 → a.Data = config := by
          intro a ha
          rcases List.mem_cons.1 ha with ha | ha
          · cases ha
            rfl
          · exact j2 a ha
        intro a b ha hb
        exact (key a ha).trans (key b hb).symm

/-- C7 as stated: at most one fetch succeeds in a sequential run. Refuted by the run of two
calls from the empty cache in which `s.get` returns the body `<html>` to the first call,
which fails to decode and leaves the cache empty, and a decodable body to the second: both
calls of `s.get` return without error. -/
theorem Spec_two_fetches_succeed :
    (runSpec [callReplying (goStr "<html>") [], callReplying (goStr "json") []]
        Service.initial).2.gets
      = [⟨goStr "/eth/v1/config/spec", true⟩, ⟨goStr "/eth/v1/config/spec", true⟩] ∧
    1 < (runSpec [callReplying (goStr "<html>") [], callReplying (goStr "json") []]
        Service.initial).2.successfulGets := by
  decide

/-- C7, amended. A populated cache is terminal: when the cache holds `m`, a call of `Spec`
by an active service with options returns `m` as data and no error and leaves the service
as it is (the cache is `m`, no `s.get` is made), and a run of any calls leaves it as it is;
so in any sequential run at most one call stores a map in the cache, and all successful
responses carry the same map. -/
theorem Spec_populated_terminal :
    (∀ (s : Service) (c : Collaborators) (o : SpecOpts) (m : SpecMap),
        s.spec = some m → c.assertIsActive = none →
          s.Spec c (some o) = (.ok { Data := m, Metadata := [] }, s)) ∧
      (∀ (calls : List Call) (s : Service) (m : SpecMap),
        s.spec = some m → (runSpec calls s).2 = s) ∧
      (∀ (calls : List Call) (s : Service), populations calls s ≤ 1) ∧
      (∀ (calls : List Call) (s : Service) (a b : Response),
        Except.ok a ∈ (runSpec calls s).1 → Except.ok b ∈ (runSpec calls s).1 →
          a.Data = b.Data) := by
  refine ⟨?_, ?_, ?_, ?_⟩
  · intro s c o m hs ha
    obtain ⟨h1, -, h3⟩ := Spec_populated s c (some o) m hs
    exact Prod.ext (h3 ha (by simp)) h1
  · intro calls s m hs
    exact (runSpec_populated calls s m hs).1
  · intro calls s
    exact (runSpec_once calls s).1
  · intro calls s a b
    exact (runSpec_once calls s).2 a b

end

/-! ## multi/pendingpartialwithdrawals.go -/

section
open multi

/-- C8. Whatever `doCall` returns to `multi.PendingPartialWithdrawals`: (i) with an error
`e`, the method returns no response and `e`; (ii) with a pending-partial-withdrawals
response and no error, it returns that response and no error; (iii) with a value of any
other dynamic type (the nil interface included) and no error, it returns no response and
`ErrIncorrectType`. -/
theorem PendingPartialWithdrawals_result (s : multi.Service)
    (opts : Option PendingPartialWithdrawalsOpts) :
    (∀ (res : AnyValue) (e : Error),
        s.doCall (pendingPartialWithdrawalsCall opts) = (res, some e) →
          s.PendingPartialWithdrawals opts = (none, some e)) ∧
      (∀ response : Option multi.Response,
        s.doCall (pendingPartialWithdrawalsCall opts)
            = (AnyValue.pendingPartialWithdrawalsResponse response, none) →
          s.PendingPartialWithdrawals opts = (response, none)) ∧
      (∀ res : AnyValue,
        s.doCall (pendingPartialWithdrawalsCall opts) = (res, none) →
          (∀ response, res ≠ AnyValue.pendingPartialWithdrawalsResponse response) →
            s.PendingPartialWithdrawals opts = (none, some Error.ErrIncorrectType)) := by
  refine ⟨?_, ?_, ?_⟩
  · intro res e h
    simp only [multi.Service.PendingPartialWithdrawals, h]
  · intro response h
    simp only [multi.Service.PendingPartialWithdrawals, h]
  · intro res h hne
    cases res with
    | pendingPartialWithdrawalsResponse p => exact absurd rfl (hne p)
    | nil => simp only [multi.Service.PendingPartialWithdrawals, h]
    | other tag => simp only [multi.Service.PendingPartialWithdrawals, h]

end

/-! ## Lemmas: signed decimal rendering -/

section
open strconv

theorem toInt64_of_range (x : Int) (h1 : -2 ^ 63 ≤ x) (h2 : x < 2 ^ 63) : toInt64 x = x := by
  simp only [toInt64]
  omega

theorem parseInt_decimalInt (n : Int) (h1 : -2 ^ 63 ≤ n) (h2 : n < 2 ^ 63) :
    ParseInt (decimalInt n) = .ok n := by
  by_cases hneg : n < 0
  · have hm : n.natAbs ≤ 2 ^ 63 := by omega
    have hu := parseUint_decimal n.natAbs (by omega)
    have hgt : ¬ n.natAbs > 2 ^ 63 := by omega
    have hval : toInt64 (-toInt64 (n.natAbs : Int)) = n := by
      simp only [toInt64]
      omega
    have hd : decimalInt n = 45 :: decimal n.natAbs := by simp [decimalInt, hneg]
    rw [hd]
    have hgt' : ¬ (9223372036854775808 < n.natAbs) := by omega
    have hval' : toInt64 (-toInt64 |n|) = n := by
      rw [abs_of_neg hneg]
      simp only [toInt64]
      omega
    simp [ParseInt, hu, hgt', hval']
  · have hn : (n.natAbs : Int) = n := by omega
    have := parseInt_decimal n.natAbs (by omega)
    simp only [decimalInt, hneg, if_false, this, hn]

theorem decimalInt_not_hex (n : Int) :
    strings.HasPrefix (decimalInt n) (goStr "0x") = false := by
  by_cases hneg : n < 0
  · simp only [decimalInt, hneg, if_true]
    simp [strings.HasPrefix, goStr]
  · simp only [decimalInt, hneg, if_false]
    exact decimal_not_hex _

end

/-! ## Timestamps -/

theorem hasSuffix_getLast (k s : GoString) (h : strings.HasSuffix k s = true) (hs : s ≠ []) :
    k.getLast? = s.getLast? := by
  simp only [strings.HasSuffix, Bool.and_eq_true, decide_eq_true_eq] at h
  have hk : k = k.take (k.length - s.length) ++ s := by
    conv_lhs => rw [← List.take_append_drop (k.length - s.length) k]
    rw [h.2]
  rw [hk, List.getLast?_append_of_ne_nil _ hs]

theorem time_key_not_forkVersion (k : GoString)
    (h : strings.HasSuffix k (goStr "_TIME") = true) :
    strings.HasSuffix k (goStr "_FORK_VERSION") = false := by
  by_contra h'
  simp only [Bool.not_eq_false] at h'
  have h1 := hasSuffix_getLast k _ h (by decide)
  have h2 := hasSuffix_getLast k _ h' (by decide)
  rw [h1] at h2
  revert h2
  decide


/-- Under a key that ends in `_TIME` and does not start with `DOMAIN_`, the decimal
rendering of a non-zero `int64` is handed to `time.Unix`. -/
theorem time_rule_returns (k : GoString) (n : Int)
    (hk : strings.HasSuffix k (goStr "_TIME") = true)
    (hd : strings.HasPrefix k (goStr "DOMAIN_") = false)
    (h0 : n ≠ 0) (h1 : -2 ^ 63 ≤ n) (h2 : n < 2 ^ 63) :
    parseSpecString k (strconv.decimalInt n) = Value.time (time.Unix n 0) := by
  have hf := time_key_not_forkVersion k hk
  have hp := parseInt_decimalInt n h1 h2
  simp only [parseSpecString, parseSpecString.domains, parseSpecString.forkVersions,
    parseSpecString.hexStrings, parseSpecString.times, hd, hf, hk, decimalInt_not_hex, hp]
  simp [h0]

/-- C11, amended. For a key that ends in `_TIME` and does not start with `DOMAIN_` (it may
start with `SECONDS_PER_`) and a non-zero integer `n` with
`-2^63 <= n <= 2^63 - 1 - 62135596800`, the decimal rendering of `n` normalises to the
timestamp `time.Unix(n, 0)`, which lies `n` seconds and 0 nanoseconds from the Unix epoch:
its seconds since January 1, year 1 are `n + 62135596800` without wrap-around, its
nanoseconds are 0 and its method `Unix()` returns `n`. -/
theorem parseSpecString_time (k : GoString) (n : Int)
    (hk : strings.HasSuffix k (goStr "_TIME") = true)
    (hd : strings.HasPrefix k (goStr "DOMAIN_") = false)
    (h0 : n ≠ 0) (h1 : -2 ^ 63 ≤ n) (h2 : n ≤ 2 ^ 63 - 1 - 62135596800) :
    parseSpecString k (strconv.decimalInt n) = Value.time (time.Unix n 0) ∧
      (time.Unix n 0).sec = n + time.unixToInternal ∧
      time.unixToInternal = 62135596800 ∧
      (time.Unix n 0).nsec = 0 ∧
      (time.Unix n 0).Unix = n := by
  refine ⟨time_rule_returns k n hk hd h0 h1 (by omega), ?_, by decide, by rfl, ?_⟩
  · have hu : time.unixToInternal = 62135596800 := by decide
    simp only [time.Unix, time.unixTime, time.Time.sec, hu, toInt64]
    omega
  · have hu : time.unixToInternal = 62135596800 := by decide
    simp only [time.Unix, time.unixTime, time.Time.Unix, time.Time.sec, hu, toInt64]
    omega

/-- Witness of C11 at the key `SECONDS_PER_GENESIS_TIME`, which also starts with
`SECONDS_PER_`, and `n = -1606824023`. -/
theorem parseSpecString_time_witness :
    (strings.HasSuffix (goStr "SECONDS_PER_GENESIS_TIME") (goStr "_TIME") = true ∧
      strings.HasPrefix (goStr "SECONDS_PER_GENESIS_TIME") (goStr "DOMAIN_") = false ∧
      (-1606824023 : Int) ≠ 0 ∧ -2 ^ 63 ≤ (-1606824023 : Int) ∧
      (-1606824023 : Int) ≤ 2 ^ 63 - 1 - 62135596800) ∧
    parseSpecString (goStr "SECONDS_PER_GENESIS_TIME") (strconv.decimalInt (-1606824023))
      = Value.time { wall := 0, ext := 60528772777 } :=
  ⟨⟨by decide, by decide, by decide, by decide, by decide⟩,
    (parseSpecString_time (goStr "SECONDS_PER_GENESIS_TIME") (-1606824023)
      (by decide) (by decide) (by decide) (by decide) (by decide)).1⟩

/-- C11 as stated, for every `n < 2^63`. Refuted at `n = 2^63 - 1` under the key
`GENESIS_TIME`: the `int64` sum `sec + unixToInternal` of `time.Unix` wraps, the timestamp
returned holds a negative count of seconds since January 1, year 1 instead of
`n + 62135596800`, and it is ordered before the timestamp of `n = 1`. -/
theorem time_wraps_at_max_int64 :
    parseSpecString (goStr "GENESIS_TIME") (strconv.decimalInt 9223372036854775807)
        = Value.time { wall := 0, ext := -9223371974719179009 } ∧
      (time.Unix 9223372036854775807 0).sec ≠ 9223372036854775807 + time.unixToInternal ∧
      (time.Unix 9223372036854775807 0).Before (time.Unix 1 0) = true :=
  ⟨by rfl, by decide, by decide⟩

/-- The value `"0"` under a key that ends in `_TIME`: no statement before
`// Handle durations.` returns. -/
theorem zero_under_time_key_eq (k : GoString)
    (hk : strings.HasSuffix k (goStr "_TIME") = true) :
    parseSpecString k (goStr "0")
      = if strings.HasPrefix k (goStr "SECONDS_PER_") then Value.duration 0
        else Value.uint64 0 := by
  have hf := time_key_not_forkVersion k hk
  have hdec : hex.DecodeString (strings.TrimPrefix (goStr "0") (goStr "0x")) = none := by decide
  have hpre : strings.HasPrefix (goStr "0") (goStr "0x") = false := by decide
  have hint : strconv.ParseInt (goStr "0") = .ok 0 := by rfl
  have hg : ¬ k = goStr "GENESIS_DELAY" := by
    rintro rfl
    revert hk
    decide
  have hw : toInt64 (0 * time.Second) = 0 := by decide
  simp only [parseSpecString, parseSpecString.domains, parseSpecString.forkVersions,
    parseSpecString.hexStrings, parseSpecString.times, parseSpecString.durations,
    parseSpecString.integers, hdec, hpre, hint, hk, hf, hg, hw]
  by_cases hs : strings.HasPrefix k (goStr "SECONDS_PER_") = true
  · simp [hs, hw]
  · simp [hs]

/-- C12, amended. For a key that ends in `_TIME` the value `"0"` is never normalised to a
timestamp; it is the unsigned integer 0 when the key does not start with `SECONDS_PER_`,
and the duration of 0 seconds (the statement under `// Handle durations.` returns first)
when it does. -/
theorem zero_under_time_key_cases (k : GoString)
    (hk : strings.HasSuffix k (goStr "_TIME") = true) :
    (∀ t, parseSpecString k (goStr "0") ≠ Value.time t) ∧
      (strings.HasPrefix k (goStr "SECONDS_PER_") = false →
        parseSpecString k (goStr "0") = Value.uint64 0) ∧
      (strings.HasPrefix k (goStr "SECONDS_PER_") = true →
        parseSpecString k (goStr "0") = Value.duration 0) := by
  have h := zero_under_time_key_eq k hk
  refine ⟨?_, ?_, ?_⟩
  · intro t ht
    rw [h] at ht
    split at ht <;> cases ht
  · intro hs
    rw [h, hs]
    rfl
  · intro hs
    rw [h, hs]
    rfl

/-- Witness of C12 at the key `GENESIS_TIME`: the unsigned integer 0. -/
theorem zero_under_time_key_cases_witness :
    strings.HasSuffix (goStr "GENESIS_TIME") (goStr "_TIME") = true ∧
      strings.HasPrefix (goStr "GENESIS_TIME") (goStr "SECONDS_PER_") = false ∧
      parseSpecString (goStr "GENESIS_TIME") (goStr "0") = Value.uint64 0 :=
  ⟨by decide, by decide,
    (zero_under_time_key_cases (goStr "GENESIS_TIME") (by decide)).2.1 (by decide)⟩

/-- C12 as stated, for every key that ends in `_TIME`. Refuted at the key
`SECONDS_PER_SLOT_TIME`: the value `"0"` is the duration of 0 seconds, not the unsigned
integer 0. -/
theorem zero_under_seconds_per_time_key :
    strings.HasSuffix (goStr "SECONDS_PER_SLOT_TIME") (goStr "_TIME") = true ∧
      parseSpecString (goStr "SECONDS_PER_SLOT_TIME") (goStr "0") = Value.duration 0 ∧
      parseSpecString (goStr "SECONDS_PER_SLOT_TIME") (goStr "0") ≠ Value.uint64 0 := by
  refine ⟨by decide, by rfl, ?_⟩
  rw [show parseSpecString (goStr "SECONDS_PER_SLOT_TIME") (goStr "0") = Value.duration 0
    from rfl]
  intro h
  cases h

/-- C13. For a key that starts neither with `DOMAIN_` nor with `SECONDS_PER_`, ends neither
in `_FORK_VERSION` nor in `_TIME` and is not `GENESIS_DELAY` (the empty key included), and
`0 <= n < 2^64`, the decimal rendering of `n` normalises to the unsigned 64-bit integer
`n`. -/
theorem parseSpecString_uint64_roundtrip (k : GoString) (n : Nat)
    (hd : strings.HasPrefix k (goStr "DOMAIN_") = false)
    (hs : strings.HasPrefix k (goStr "SECONDS_PER_") = false)
    (hf : strings.HasSuffix k (goStr "_FORK_VERSION") = false)
    (ht : strings.HasSuffix k (goStr "_TIME") = false)
    (hg : k ≠ goStr "GENESIS_DELAY") (hn : n < 2 ^ 64) :
    parseSpecString k (strconv.decimal n) = Value.uint64 n := by
  have hu := parseUint_decimal n hn
  simp only [parseSpecString, parseSpecString.domains, parseSpecString.forkVersions,
    parseSpecString.hexStrings, parseSpecString.times, parseSpecString.durations,
    parseSpecString.integers, hd, hs, hf, ht, hg, decimal_not_hex, hu]
  by_cases h0 : n = 0
  · subst h0
    rfl
  · have hne : strconv.decimal n ≠ goStr "0" := by
      intro h
      rw [h] at hu
      have : strconv.ParseUint (goStr "0") = .ok 0 := by rfl
      rw [this] at hu
      cases hu
      exact h0 rfl
    simp [hne, h0]

/-- Witness of C13 at the empty key and `n = 2^64 - 1`. -/
theorem parseSpecString_uint64_roundtrip_witness :
    (strings.HasPrefix ([] : GoString) (goStr "DOMAIN_") = false ∧
      strings.HasPrefix ([] : GoString) (goStr "SECONDS_PER_") = false ∧
      strings.HasSuffix ([] : GoString) (goStr "_FORK_VERSION") = false ∧
      strings.HasSuffix ([] : GoString) (goStr "_TIME") = false ∧
      ([] : GoString) ≠ goStr "GENESIS_DELAY" ∧ 18446744073709551615 < 2 ^ 64) ∧
    parseSpecString [] (strconv.decimal 18446744073709551615)
      = Value.uint64 18446744073709551615 :=
  ⟨⟨by decide, by decide, by decide, by decide, by decide, by decide⟩,
    parseSpecString_uint64_roundtrip [] 18446744073709551615
      (by decide) (by decide) (by decide) (by decide) (by decide) (by decide)⟩

/-! ## Lemmas: shapes -/

theorem shapeArray_eq_map (xs : List Value) : shapeArray xs = xs.map Value.shape := by
  induction xs with
  | nil => rfl
  | cons x rest ih => rw [shapeArray, ih]; rfl

theorem shapeMap_eq_map (m : SpecMap) : shapeMap m = m.map (fun e => (e.1, e.2.shape)) := by
  induction m with
  | nil => rfl
  | cons e rest ih =>
    obtain ⟨k, v⟩ := e
    rw [shapeMap, ih]
    rfl

theorem wellFormedArray_iff (xs : List Value) :
    wellFormedArray xs = true ↔ ∀ x ∈ xs, x.wellFormed = true := by
  induction xs with
  | nil => simp [wellFormedArray]
  | cons x rest ih => simp [wellFormedArray, ih]

theorem wellFormedMap_iff (m : SpecMap) :
    wellFormedMap m = true ↔ ∀ e ∈ m, e.2.wellFormed = true := by
  induction m with
  | nil => simp [wellFormedMap]
  | cons e rest ih =>
    obtain ⟨k, v⟩ := e
    simp [wellFormedMap, ih]

theorem parseSpecArray_eq_map (a : List Value) :
    parseSpecArray a = a.map (parseSpecValue []) := by
  induction a with
  | nil => rfl
  | cons x rest ih => rw [parseSpecArray, ih]; rfl

theorem parseSpecString_shape (k v : GoString) : (parseSpecString k v).shape = Shape.leaf := by
  rcases parseSpecString_cases k v with h | h
  · revert h
    cases parseSpecString k v <;> intro h <;> first | rfl | cases h
  · rw [h]
    rfl

theorem parseSpecValue_shape_aux : ∀ n : Nat, ∀ v : Value, sizeOf v ≤ n →
    v.wellFormed = true → ∀ k, (parseSpecValue k v).shape = v.shape := by
  intro n
  induction n with
  | zero =>
    intro v hv
    cases v <;> simp at hv
  | succ n ih =>
    intro v hv hwf k
    cases v with
    | string s =>
      rw [parseSpecValue, parseSpecString_shape]
      rfl
    | slice xs =>
      rw [parseSpecValue, Value.shape, Value.shape, shapeArray_eq_map, shapeArray_eq_map,
        parseSpecArray_eq_map, List.map_map]
      congr 1
      apply List.map_congr_left
      intro w hw
      have h1 := List.sizeOf_lt_of_mem hw
      simp only [Value.slice.sizeOf_spec] at hv
      rw [Value.wellFormed] at hwf
      exact ih w (by omega) ((wellFormedArray_iff xs).1 hwf w hw) []
    | map m =>
      rw [Value.wellFormed, Bool.and_eq_true, decide_eq_true_eq] at hwf
      have hm := parseSpecMap_of_nodup m hwf.1
      rw [parseSpecMap] at hm
      rw [parseSpecValue, Value.shape, Value.shape, shapeMap_eq_map, shapeMap_eq_map, hm,
        List.map_map]
      congr 1
      apply List.map_congr_left
      intro e he
      have h1 := List.sizeOf_lt_of_mem he
      obtain ⟨k0, v0⟩ := e
      simp only [Value.map.sizeOf_spec, Prod.mk.sizeOf_spec] at hv h1
      have := ih v0 (by omega) ((wellFormedMap_iff m).1 hwf.2 (k0, v0) he) k0
      simp only [Function.comp, this]
    | _ => rfl

/-- C14. Shape preservation: `parseSpecMap t` has exactly the keys of `t` (for a map `t`,
whose keys are distinct, the same keys in the same order, each entry replaced by its
image); `parseSpecArray a` has the length of `a` and its element `i` is the image of
element `i` of `a`; a well-formed value and its image have the same shape at every depth;
arrays and maps are normalised recursively; a string leaf is replaced by the one value
`parseSpecString` gives, which is a leaf; and a value that is no string, array or map is
returned unchanged. -/
theorem parseSpec_shape :
    (∀ (t : SpecMap) (k : GoString), k ∈ mapKeys (parseSpecMap t) ↔ k ∈ mapKeys t) ∧
      (∀ t : SpecMap, (mapKeys t).Nodup →
        mapKeys (parseSpecMap t) = mapKeys t ∧
        parseSpecMap t = t.map (fun e => (e.1, parseSpecValue e.1 e.2))) ∧
      (∀ a : List Value, (parseSpecArray a).length = a.length ∧
        ∀ i : Nat, (parseSpecArray a)[i]? = (a[i]?).map (parseSpecValue [])) ∧
      (∀ (k : GoString) (v : Value), v.wellFormed = true →
        (parseSpecValue k v).shape = v.shape) ∧
      (∀ (k : GoString) (xs : List Value),
        parseSpecValue k (Value.slice xs) = Value.slice (parseSpecArray xs)) ∧
      (∀ (k : GoString) (m : SpecMap),
        parseSpecValue k (Value.map m) = Value.map (parseSpecMap m)) ∧
      (∀ k s : GoString, parseSpecValue k (Value.string s) = parseSpecString k s ∧
        (parseSpecString k s).shape = Shape.leaf) ∧
      (∀ (k : GoString) (v : Value), (∀ s, v ≠ Value.string s) → (∀ xs, v ≠ Value.slice xs) →
        (∀ m, v ≠ Value.map m) → parseSpecValue k v = v) := by
  refine ⟨mem_mapKeys_parseSpecMap, ?_, ?_, ?_, ?_, ?_, ?_, ?_⟩
  · intro t ht
    have h := parseSpecMap_of_nodup t ht
    refine ⟨?_, h⟩
    rw [h]
    simp [mapKeys, List.map_map, Function.comp]
  · intro a
    rw [parseSpecArray_eq_map]
    exact ⟨List.length_map _ _, fun i => List.getElem?_map _ _ _⟩
  · intro k v hwf
    exact parseSpecValue_shape_aux _ v (Nat.le_refl _) hwf k
  · intro k xs
    rw [parseSpecValue]
  · intro k m
    rw [parseSpecValue, parseSpecMap]
  · intro k s
    exact ⟨by rw [parseSpecValue], parseSpecString_shape k s⟩
  · intro k v h1 h2 h3
    cases v with
    | string s => exact absurd rfl (h1 s)
    | slice xs => exact absurd rfl (h2 xs)
    | map m => exact absurd rfl (h3 m)
    | _ => rfl

/-! ## Array elements -/

theorem hexStrings_bytes (v : GoString) (r : Value)
    (h : parseSpecString.hexStrings v = some r) : ∃ b, r = Value.bytes b := by
  unfold parseSpecString.hexStrings at h
  split at h
  · split at h
    · cases h; exact ⟨_, rfl⟩
    · cases h
  · cases h

theorem integers_uint64 (v : GoString) (r : Value)
    (h : parseSpecString.integers v = some r) : ∃ n, r = Value.uint64 n := by
  unfold parseSpecString.integers at h
  split at h
  · cases h; exact ⟨_, rfl⟩
  · split at h
    · split at h
      · cases h; exact ⟨_, rfl⟩
      · cases h
    · cases h

/-- Under the empty key only the statements that read the value alone can return. -/
theorem parseSpecString_empty_key (v : GoString) :
    (∃ b, parseSpecString [] v = Value.bytes b) ∨
      (∃ n, parseSpecString [] v = Value.uint64 n) ∨
      parseSpecString [] v = Value.string v := by
  have h1 : parseSpecString.domains [] v = none := by
    simp [parseSpecString.domains, strings.HasPrefix, goStr]
  have h2 : parseSpecString.forkVersions [] v = none := by
    simp [parseSpecString.forkVersions, strings.HasSuffix, goStr]
  have h4 : parseSpecString.times [] v = none := by
    simp [parseSpecString.times, strings.HasSuffix, goStr]
  have h5 : parseSpecString.durations [] v = none := by
    simp [parseSpecString.durations, strings.HasPrefix, goStr]
  simp only [parseSpecString, h1, h2, h4, h5]
  cases h3 : parseSpecString.hexStrings v with
  | some r =>
    obtain ⟨b, rfl⟩ := hexStrings_bytes v r h3
    exact Or.inl ⟨b, rfl⟩
  | none =>
    cases h6 : parseSpecString.integers v with
    | some r =>
      obtain ⟨n, rfl⟩ := integers_uint64 v r h6
      exact Or.inr (Or.inl ⟨n, rfl⟩)
    | none => exact Or.inr (Or.inr rfl)

/-- C20. Array elements are normalised with the empty key: under whatever key an array is
stored, a string element `v` of it becomes `parseSpecString("", v)`, which is a byte slice,
an unsigned 64-bit integer or the string `v`, and never a domain tag, version tag,
timestamp or duration; a map nested in the array becomes `parseSpecMap` of it, whose
string leaves are normalised under their own keys. -/
theorem parseSpecArray_empty_key :
    (∀ (k : GoString) (xs : List Value) (i : Nat) (v : GoString),
        xs[i]? = some (Value.string v) →
          parseSpecValue k (Value.slice xs) = Value.slice (parseSpecArray xs) ∧
          (parseSpecArray xs)[i]? = some (parseSpecString [] v)) ∧
      (∀ (t : SpecMap) (k : GoString) (xs : List Value), (mapKeys t).Nodup →
        (k, Value.slice xs) ∈ t →
          mapGet (parseSpecMap t) k = some (Value.slice (parseSpecArray xs))) ∧
      (∀ v : GoString,
        ((∃ b, parseSpecString [] v = Value.bytes b) ∨
          (∃ n, parseSpecString [] v = Value.uint64 n) ∨
          parseSpecString [] v = Value.string v) ∧
        (∀ d, parseSpecString [] v ≠ Value.domainType d) ∧
        (∀ d, parseSpecString [] v ≠ Value.version d) ∧
        (∀ t, parseSpecString [] v ≠ Value.time t) ∧
        (∀ d, parseSpecString [] v ≠ Value.duration d)) ∧
      (∀ (xs : List Value) (i : Nat) (m : SpecMap), xs[i]? = some (Value.map m) →
        (parseSpecArray xs)[i]? = some (Value.map (parseSpecMap m)) ∧
        ((mapKeys m).Nodup → ∀ k' s : GoString, (k', Value.string s) ∈ m →
          mapGet (parseSpecMap m) k' = some (parseSpecString k' s))) := by
  refine ⟨?_, ?_, ?_, ?_⟩
  · intro k xs i v h
    refine ⟨by rw [parseSpecValue], ?_⟩
    rw [parseSpecArray_eq_map, List.getElem?_map, h]
    simp [parseSpecValue]
  · intro t k xs hnd h
    rw [mapGet_parseSpecMap t hnd k _ h, parseSpecValue]
  · intro v
    have h := parseSpecString_empty_key v
    refine ⟨h, ?_, ?_, ?_, ?_⟩ <;>
    · intro d hd
      rcases h with ⟨b, hb⟩ | ⟨n, hn⟩ | hs
      · rw [hb] at hd; cases hd
      · rw [hn] at hd; cases hd
      · rw [hs] at hd; cases hd
  · intro xs i m h
    refine ⟨?_, ?_⟩
    · rw [parseSpecArray_eq_map, List.getElem?_map, h]
      simp [parseSpecValue, parseSpecMap]
    · intro hnd k' s hs
      rw [mapGet_parseSpecMap m hnd k' _ hs, parseSpecValue]

/-! ## Options validation -/

section
open http

/-- C16. A call of `Spec` by an active service with nil options returns `ErrNoOptions` and
no response and leaves the service as it is: the cache, empty or populated, is unchanged
and no `s.get` is made. -/
theorem Spec_no_options (s : Service) (c : Collaborators) (ha : c.assertIsActive = none) :
    s.Spec c none = (.error Error.ErrNoOptions, s) ∧
      (s.Spec c none).2.spec = s.spec ∧ (s.Spec c none).2.gets = s.gets := by
  have h : s.Spec c none = (.error Error.ErrNoOptions, s) := by
    simp only [Service.Spec, ha]
  exact ⟨h, by rw [h], by rw [h]⟩

/-- Witness of C16 on a populated cache. -/
theorem Spec_no_options_witness :
    (replying (goStr "json") []).assertIsActive = none ∧
      ({ spec := some [(goStr "PRESET_BASE", Value.string (goStr "mainnet"))], gets := [] }
          : Service).Spec (replying (goStr "json") []) none
        = (.error Error.ErrNoOptions,
            { spec := some [(goStr "PRESET_BASE", Value.string (goStr "mainnet"))], gets := [] }) :=
  ⟨rfl, (Spec_no_options
    { spec := some [(goStr "PRESET_BASE", Value.string (goStr "mainnet"))], gets := [] }
    (replying (goStr "json") []) rfl).1⟩

end

/-! ## The domain rule and the `0x` prefix -/

/-- Under a duration key the decimal rendering of `n < 2^63` gives the `int64` product of
`n` and `time.Second`. -/
theorem duration_rule_returns (k : GoString) (n : Nat)
    (hk : strings.HasPrefix k (goStr "SECONDS_PER_") = true ∨ k = goStr "GENESIS_DELAY")
    (ht : strings.HasSuffix k (goStr "_TIME") = false)
    (hf : strings.HasSuffix k (goStr "_FORK_VERSION") = false)
    (hn : n < 2 ^ 63) :
    parseSpecString k (strconv.decimal n)
      = Value.duration (toInt64 ((n : Int) * time.Second)) := by
  have hd := duration_key_not_domain k hk
  have hk' : (strings.HasPrefix k (goStr "SECONDS_PER_") ||
      decide (k = goStr "GENESIS_DELAY")) = true := by
    rcases hk with hk | hk
    · simp [hk]
    · simp [hk]
  have hp := parseInt_decimal n hn
  simp only [parseSpecString, parseSpecString.domains, parseSpecString.forkVersions,
    parseSpecString.hexStrings, parseSpecString.times, parseSpecString.durations,
    hd, ht, hf, decimal_not_hex, hk', hp]
  simp

/-- C19, amended. For a key that starts with `SECONDS_PER_` or is `GENESIS_DELAY` and ends
neither in `_TIME` nor in `_FORK_VERSION`, and `0 <= n <= 9223372036`, the duration returned
for the decimal rendering of `n` is non-negative and is exactly `n * 10^9` nanoseconds: the
`int64` product does not wrap. -/
theorem duration_exact_below_wrap (k : GoString) (n : Nat)
    (hk : strings.HasPrefix k (goStr "SECONDS_PER_") = true ∨ k = goStr "GENESIS_DELAY")
    (ht : strings.HasSuffix k (goStr "_TIME") = false)
    (hf : strings.HasSuffix k (goStr "_FORK_VERSION") = false)
    (hn : n ≤ 9223372036) :
    parseSpecString k (strconv.decimal n) = Value.duration ((n : Int) * 1000000000) ∧
      (0 : Int) ≤ (n : Int) * 1000000000 ∧
      (n : Int) * 1000000000 < 2 ^ 63 ∧
      toInt64 ((n : Int) * time.Second) = (n : Int) * 1000000000 := by
  have hw : toInt64 ((n : Int) * time.Second) = (n : Int) * 1000000000 := by
    simp only [toInt64, time.Second]
    omega
  refine ⟨?_, by omega, by omega, hw⟩
  rw [duration_rule_returns k n hk ht hf (by omega), hw]

/-- Witness of C19 at the key `GENESIS_DELAY` and the largest such `n`. -/
theorem duration_exact_below_wrap_witness :
    ((strings.HasPrefix (goStr "GENESIS_DELAY") (goStr "SECONDS_PER_") = true ∨
        goStr "GENESIS_DELAY" = goStr "GENESIS_DELAY") ∧
      strings.HasSuffix (goStr "GENESIS_DELAY") (goStr "_TIME") = false ∧
      strings.HasSuffix (goStr "GENESIS_DELAY") (goStr "_FORK_VERSION") = false ∧
      9223372036 ≤ 9223372036) ∧
    parseSpecString (goStr "GENESIS_DELAY") (strconv.decimal 9223372036)
      = Value.duration 9223372036000000000 :=
  ⟨⟨by decide, by decide, by decide, by decide⟩,
    (duration_exact_below_wrap (goStr "GENESIS_DELAY") 9223372036
      (by decide) (by decide) (by decide) (by decide)).1⟩

/-- C19 as stated, for every `n < 2^63`. Refuted at `n = 9223372037` under the key
`SECONDS_PER_SLOT`: the `int64` product wraps and the duration returned is negative. -/
theorem duration_wraps_above_bound :
    (9223372037 : Int) < 2 ^ 63 ∧
      parseSpecString (goStr "SECONDS_PER_SLOT") (strconv.decimal 9223372037)
        = Value.duration (-9223372036709551616) ∧
      (-9223372036709551616 : Int) < 0 ∧
      (-9223372036709551616 : Int) ≠ 9223372037 * 1000000000 :=
  ⟨by decide, by rfl, by decide, by decide⟩

/-! ## The function handed to `doCall` -/

section
open multi

/-- C15. The claim asks that the function handed to `doCall` end normally, with an error,
on a client without the pending-partial-withdrawals capability. The code does not: on such
a client the single-value type assertion `client.(...PendingPartialWithdrawalsProvider)`
panics, whatever the options are, and the function returns nothing, neither a value nor an
error (the assertion on the result, further down in the same method, has the comma-ok form
and yields `ErrIncorrectType` instead). -/
theorem pendingPartialWithdrawalsCall_panics (opts : Option PendingPartialWithdrawalsOpts) :
    pendingPartialWithdrawalsCall opts { PendingPartialWithdrawals := none } = Outcome.panics ∧
      ∀ r, pendingPartialWithdrawalsCall opts { PendingPartialWithdrawals := none }
        ≠ Outcome.returns r :=
  ⟨rfl, fun r h => by cases h⟩

end

end Eth2Client
